import Mathlib

/-!
Verification development for `gitma_canspin/annotation_collection.py`: a shallow
embedding of the annotation-collection aggregation and tabular transformation
engine, together with proofs about the claims of the specification.

Python strings are modelled as `List Char` (`PyStr`); Python dicts that the code
iterates over are modelled as ordered association lists (insertion order), with
the dict property of distinct keys expressed as a `Nodup` hypothesis where a
claim needs it.  Fallible constructs are modelled with `Except`/`Option`.
-/

set_option maxRecDepth 4000

/-- Python `str`, modelled as a list of characters. -/
abbrev PyStr : Type := List Char

/-- Coerce a Lean string literal into the Python string model. -/
def pyStr (s : String) : PyStr := s.toList

/-- Python dict membership test `k in d` for an ordered association list. -/
def keyMem {α : Type} (k : PyStr) (d : List (PyStr × α)) : Bool :=
  d.any (fun p => p.1 == k)

/-- Python dict indexing `d[k]` for an ordered association list (first match). -/
def lookupVal {α : Type} (d : List (PyStr × α)) (k : PyStr) : Option α :=
  Option.map Prod.snd (d.find? (fun p => p.1 == k))

/-- Helper: if `pat` is a leading piece of `s`, return the rest of `s`. -/
def dropPre : PyStr → PyStr → Option PyStr
  | [], s => some s
  | _ :: _, [] => none
  | p :: ps, c :: cs => if p == c then dropPre ps cs else none

/-- Python substring containment `pat in s` (case-sensitive literal search). -/
def lit_search (pat : PyStr) : PyStr → Bool
  | [] => (dropPre pat []).isSome
  | c :: cs => (dropPre pat (c :: cs)).isSome || lit_search pat cs

/-- Python regular-expression matching of `pat` against a leading piece of `s`,
modelled for the pattern subset used here: the metacharacter `.` matches any
single character and every other character matches itself literally
(`re.search` is only ever called through `pandas.Series.str.contains`). -/
def re_match_here : PyStr → PyStr → Bool
  | [], _ => true
  | _ :: _, [] => false
  | p :: ps, c :: cs => (p == '.' || p == c) && re_match_here ps cs

/-- Python `re.search(pat, s) is not None` for the modelled pattern subset:
the pattern may match at any start position. -/
def re_search (pat : PyStr) : PyStr → Bool
  | [] => re_match_here pat []
  | c :: cs => re_match_here pat (c :: cs) || re_search pat cs

/-- Python's regex metacharacters; a pattern avoiding all of them is a literal. -/
def regex_metachars : List Char := pyStr ".^$*+?\x7b\x7d[]\\|()"

/-- Fuel-indexed worker for `pyReplace`; the fuel always suffices when it
starts at the length of the subject string. -/
def pyReplaceAux (pat rep : PyStr) : Nat → PyStr → PyStr
  | _, [] => []
  | 0, s => s
  | Nat.succ n, c :: cs =>
    if pat.isEmpty then c :: pyReplaceAux pat rep n cs
    else
      match dropPre pat (c :: cs) with
      | some r => rep ++ pyReplaceAux pat rep n r
      | none => c :: pyReplaceAux pat rep n cs

/-- Python `s.replace(pat, rep)` (all non-overlapping occurrences, left to
right) for a non-empty `pat`. -/
def pyReplace (pat rep s : PyStr) : PyStr := pyReplaceAux pat rep s.length s

/-- Worker for `splitOnChar`, accumulating the current field reversed. -/
def splitOnCharAux (c : Char) : PyStr → PyStr → List PyStr
  | [], acc => [acc.reverse]
  | x :: xs, acc =>
    if x == c then acc.reverse :: splitOnCharAux c xs []
    else splitOnCharAux c xs (x :: acc)

/-- Python `s.split(sep)` for a single-character separator: splits at every
occurrence, keeping empty fields (`"".split(",") == [""]`). -/
def splitOnChar (c : Char) (s : PyStr) : List PyStr := splitOnCharAux c s []

/-- Python `sep.join(parts)` for a single-character separator. -/
def joinChar (c : Char) : List PyStr → PyStr
  | [] => []
  | [x] => x
  | x :: y :: rest => x ++ c :: joinChar c (y :: rest)

/-- Worker collapsing runs of spaces; the flag records whether the previous
kept character was a space. -/
def collapseSpacesAux : PyStr → Bool → PyStr
  | [], _ => []
  | ch :: rest, prev =>
    if ch == ' ' then
      if prev then collapseSpacesAux rest true
      else ' ' :: collapseSpacesAux rest true
    else ch :: collapseSpacesAux rest false

/-- `clean_text_in_ac_df`: replace newlines by spaces (`re.sub('\n', ' ', .)`),
then collapse every run of spaces to a single space (`re.sub(' +', ' ', .)`). -/
def clean_text_in_ac_df (s : PyStr) : PyStr :=
  collapseSpacesAux (s.map (fun ch => if ch == '\n' then ' ' else ch)) false

/-- Python `string.punctuation`. -/
def punctuation : PyStr := pyStr "!\"#$%&\x27()*+,-./:;<=>?@[\\]^_\x60\x7b|\x7d~"

/-- Python `s.translate(str.maketrans('', '', string.punctuation))`: delete
every punctuation character. -/
def removePunctuation (s : PyStr) : PyStr :=
  s.filter (fun ch => !(punctuation.contains ch))

/-- A tag's parent, modelled by the only attribute the code reads: its name.
The `Tag` collaborator (`gitma_canspin.tag`) is external to the core; the spec
describes it as "name, full hierarchical path, optional parent reference". -/
structure TagParent where
  name : PyStr
deriving DecidableEq

/-- The `Tag` collaborator: name, full hierarchical path and optional parent. -/
structure Tag where
  name : PyStr
  full_path : PyStr
  parent : Option TagParent
deriving DecidableEq

/-- An annotation's property dict: ordered mapping from property name to the
ordered list of string values. -/
abbrev PropDict := List (PyStr × List PyStr)

/-- The `Annotation` collaborator, with the attributes the core reads:
uuid, author, tag, property dict, context windows, span and date. -/
structure Annotation where
  uuid : PyStr
  author : PyStr
  tag : Tag
  properties : PropDict
  pretext : PyStr
  text : PyStr
  posttext : PyStr
  start_point : Nat
  end_point : Nat
  date : PyStr
deriving DecidableEq

/-- The accumulating `properties_dict` of `split_property_dict_to_column`:
ordered mapping from property name to the column of per-row value lists. -/
abbrev PropsTable := List (PyStr × List (List PyStr))

/-- The missing-value marker `['nan']`. -/
def nanv : List PyStr := [pyStr "nan"]

/-- First inner loop of `split_property_dict_to_column`: for each key of the
current row's property dict, either append its value list to the existing
column or start a new column backfilled with `index` missing markers. -/
def addItemKeys (index : Nat) : PropDict → PropsTable → PropsTable
  | [], acc => acc
  | (k, v) :: rest, acc =>
    if keyMem k acc then
      addItemKeys index rest
        (acc.map (fun p => if p.1 == k then (p.1, p.2 ++ [v]) else p))
    else
      addItemKeys index rest (acc ++ [(k, List.replicate index nanv ++ [v])])

/-- Second inner loop of `split_property_dict_to_column`: every known property
absent from the current row's dict gets the missing marker appended. -/
def padMissing (item : PropDict) (acc : PropsTable) : PropsTable :=
  acc.map (fun p => if keyMem p.1 item then p else (p.1, p.2 ++ [nanv]))

/-- Outer loop of `split_property_dict_to_column` over the `properties`
column, keeping the running row index. -/
def buildAux : Nat → List PropDict → PropsTable → PropsTable
  | _, [], acc => acc
  | index, item :: rest, acc =>
    buildAux (index + 1) rest (padMissing item (addItemKeys index item acc))

/-- The `properties_dict` computed by `split_property_dict_to_column` from the
`properties` column. -/
def build_properties_dict (items : List PropDict) : PropsTable :=
  buildAux 0 items []

/-- One row of the collection `DataFrame`'s fixed columns.  The field
`annotation_txt` carries the `'annotation'` column (the annotated text). -/
structure RawRow where
  document : PyStr
  annotation_collection : PyStr
  annotator : PyStr
  tag : PyStr
  tag_path : PyStr
  properties : PropDict
  left_context : PyStr
  annotation_txt : PyStr
  right_context : PyStr
  start_point : Nat
  end_point : Nat
  date : PyStr
deriving DecidableEq

/-- The fixed column list `df_columns`. -/
def df_columns : List PyStr :=
  [pyStr "document", pyStr "annotation collection", pyStr "annotator",
   pyStr "tag", pyStr "tag_path", pyStr "properties", pyStr "left_context",
   pyStr "annotation", pyStr "right_context", pyStr "start_point",
   pyStr "end_point", pyStr "date"]

/-- The collection `DataFrame`: fixed-column rows, whether the raw
`'properties'` staging column is (still) present, and the dynamic
`'prop:'`-prefixed columns in insertion order (keyed by bare property name). -/
structure ACDf where
  rows : List RawRow
  hasPropsCol : Bool
  propCols : PropsTable
deriving DecidableEq

/-- The column list of a modelled `DataFrame`, in pandas order: the fixed
columns (with `'properties'` present only if not yet dropped) followed by the
`'prop:'`-prefixed dynamic columns. -/
def dfColumnsOf (df : ACDf) : List PyStr :=
  (if df.hasPropsCol then df_columns else df_columns.erase (pyStr "properties"))
    ++ df.propCols.map (fun p => pyStr "prop:" ++ p.1)

/-- The tuple built for one annotation in `ac_to_df`'s DataFrame constructor. -/
def rawRowOf (title acName : PyStr) (a : Annotation) : RawRow :=
  { document := title, annotation_collection := acName, annotator := a.author,
    tag := a.tag.name, tag_path := a.tag.full_path, properties := a.properties,
    left_context := a.pretext, annotation_txt := a.text,
    right_context := a.posttext, start_point := a.start_point,
    end_point := a.end_point, date := a.date }

/-- `split_property_dict_to_column`: build the dynamic property columns from
the `properties` column and drop that staging column. -/
def split_property_dict_to_column (rows : List RawRow) : ACDf :=
  { rows := rows, hasPropsCol := false,
    propCols := build_properties_dict (rows.map (fun r => r.properties)) }

/-- The text-cleaning step of `ac_to_df` applied to one row: clean the
`left_context`, `annotation` and `right_context` columns. -/
def cleanRow (r : RawRow) : RawRow :=
  { r with left_context := clean_text_in_ac_df r.left_context,
           annotation_txt := clean_text_in_ac_df r.annotation_txt,
           right_context := clean_text_in_ac_df r.right_context }

/-- `ac_to_df`: build the fixed-column rows, split the property dict into
dynamic columns, then clean the three text columns. -/
def ac_to_df (anns : List Annotation) (title acName : PyStr) : ACDf :=
  let df := split_property_dict_to_column (anns.map (rawRowOf title acName))
  { df with rows := df.rows.map cleanRow }

/-- The `AnnotationCollection` aggregate: identity, directory, name, the owned
ordered annotation sequence and the derived table. -/
structure AnnotationCollection where
  uuid : PyStr
  directory : PyStr
  name : PyStr
  annotations : List Annotation
  df : ACDf
deriving DecidableEq

/-- Modelled from the spec: the `Annotation` comparison contract used by
`sorted(...)` in the constructor lives in `gitma_canspin.annotation` (not in
src); the spec describes the order as natural document-offset order, modelled
here as a stable insertion sort by `start_point`. -/
def insertByStart (a : Annotation) : List Annotation → List Annotation
  | [] => [a]
  | b :: bs =>
    if b.start_point ≤ a.start_point then b :: insertByStart a bs
    else a :: b :: bs

/-- Modelled from the spec: `sorted(list(load_annotations(...)))`. -/
def sortAnnotations : List Annotation → List Annotation
  | [] => []
  | a :: as => insertByStart a (sortAnnotations as)

/-- The parts of the on-disk project state that the constructor reads:
identifiers, whether `header.json` exists and its fields, the document title,
whether the `annotations/` subdirectory exists, and the annotations its page
files would yield. -/
structure ProjectFs where
  project_uuid : PyStr
  ac_uuid : PyStr
  headerExists : Bool
  header_name : PyStr
  text_title : PyStr
  annotationsDirExists : Bool
  loadedAnnotations : List Annotation
deriving DecidableEq

/-- The collection directory `f'{catma_project.uuid}/collections/{self.uuid}/'`. -/
def acDirectory (fs : ProjectFs) : PyStr :=
  fs.project_uuid ++ pyStr "/collections/" ++ fs.ac_uuid ++ pyStr "/"

/-- The `FileNotFoundError` message raised for a missing `header.json`. -/
def headerNotFoundMsg (fs : ProjectFs) : PyStr :=
  pyStr "The annotation collection at this path could not be found: "
    ++ acDirectory fs
    ++ pyStr "\n                    --> Make sure the CATMA project clone worked properly."

/-- `AnnotationCollection.__init__`: fail if `header.json` is missing; if the
`annotations/` subdirectory exists, load, sort and tabulate the annotations,
otherwise produce an empty collection whose table is
`pd.DataFrame(columns=df_columns)`. -/
def ACinit (fs : ProjectFs) : Except PyStr AnnotationCollection :=
  if fs.headerExists = false then
    Except.error (headerNotFoundMsg fs)
  else if fs.annotationsDirExists then
    let anns := sortAnnotations fs.loadedAnnotations
    Except.ok
      { uuid := fs.ac_uuid, directory := acDirectory fs, name := fs.header_name,
        annotations := anns, df := ac_to_df anns fs.text_title fs.header_name }
  else
    Except.ok
      { uuid := fs.ac_uuid, directory := acDirectory fs, name := fs.header_name,
        annotations := [], df := { rows := [], hasPropsCol := true, propCols := [] } }

/-- A collection as the constructor produces it from an already-sorted
annotation list: the derived table is `ac_to_df` of the owned annotations
(the §3 invariant relating `Table` and the annotation sequence). -/
def collection_of (anns : List Annotation) (title acName : PyStr) : AnnotationCollection :=
  { uuid := [], directory := [], name := acName, annotations := anns,
    df := ac_to_df anns title acName }

/-- Keep a list element exactly when the boolean mask entry at its position is
set (pandas boolean-mask row selection). -/
def maskFilter {α : Type} (mask : List Bool) (l : List α) : List α :=
  (l.zip mask).filterMap (fun p => if p.2 then some p.1 else none)

/-- `AnnotationCollection.filter_by_tag_path`:
`self.df[self.df.tag_path.str.contains(path_element)]`.  pandas
`Series.str.contains` defaults to `regex=True`, i.e. `re.search`. -/
def filter_by_tag_path (df : ACDf) (path_element : PyStr) : ACDf :=
  let mask := df.rows.map (fun r => re_search path_element r.tag_path)
  { rows := maskFilter mask df.rows, hasPropsCol := df.hasPropsCol,
    propCols := df.propCols.map (fun p => (p.1, maskFilter mask p.2)) }

/-- Modelled from the spec: `duplicate_rows` lives in
`gitma_canspin._vizualize` (not in src).  Per §4.3 it returns a derived view
with one row per (annotation, property-value) pair for the chosen property
column (accepting the name with or without the `'prop:'` prefix, since call
sites pass both forms) and raises `KeyError` when that column is absent. -/
def duplicate_rows (df : ACDf) (property_col : PyStr) : Except Unit (List (RawRow × PyStr)) :=
  let col := if lit_search (pyStr "prop:") property_col then property_col
             else pyStr "prop:" ++ property_col
  match (df.propCols.find? (fun q => (pyStr "prop:" ++ q.1) == col)) with
  | none => Except.error ()
  | some q =>
    Except.ok ((df.rows.zip q.2).flatMap (fun p => p.2.map (fun v => (p.1, v))))

/-- `AnnotationCollection.duplicate_by_prop`: delegate to `duplicate_rows`;
on `KeyError`, raise `ValueError` whose message lists
`[item.replace('prop:', '') for item in self.df.columns if 'prop:' in item]`
(the error payload here is that list, as embedded in the message). -/
def duplicate_by_prop (ac : AnnotationCollection) (prop : PyStr) :
    Except (List PyStr) (List (RawRow × PyStr)) :=
  match duplicate_rows ac.df prop with
  | Except.ok v => Except.ok v
  | Except.error _ =>
    Except.error
      ((dfColumnsOf ac.df).filterMap (fun item =>
        if lit_search (pyStr "prop:") item then
          some (pyReplace (pyStr "prop:") [] item)
        else none))

/-- The predicate of `get_annotation_by_tag`'s comprehension, as evaluated by
Python: `annotation.tag.name == tag_name or annotation.tag.parent.name ==
tag_name`, where reading `.name` of a missing parent raises
(`AttributeError`); `or` short-circuits, so the parent is only read when the
tag's own name does not match. -/
def tag_or_parent_matches (t : Tag) (tag_name : PyStr) : Except Unit Bool :=
  if t.name == tag_name then Except.ok true
  else
    match t.parent with
    | none => Except.error ()
    | some p => Except.ok (p.name == tag_name)

/-- The successful value of `tag_or_parent_matches`, as a total predicate. -/
def matches_tag_query (t : Tag) (tag_name : PyStr) : Bool :=
  t.name == tag_name
    || (match t.parent with
        | some p => p.name == tag_name
        | none => false)

/-- `AnnotationCollection.get_annotation_by_tag`: the list comprehension over
`self.annotations`, evaluated left to right; the first failing predicate
evaluation propagates. -/
def get_annotation_by_tag (anns : List Annotation) (tag_name : PyStr) :
    Except Unit (List Annotation) :=
  match anns with
  | [] => Except.ok []
  | an :: rest =>
    match tag_or_parent_matches an.tag tag_name with
    | Except.error e => Except.error e
    | Except.ok b =>
      match get_annotation_by_tag rest tag_name with
      | Except.error e => Except.error e
      | Except.ok l => Except.ok (if b then an :: l else l)

/-- The `token_list` of `most_common_token` after punctuation removal, the
split on single spaces, removal of empty tokens, and the optional stopword
filter (`if stopwords:` is false for both `None` and `[]`). -/
def processed_tokens (texts : List PyStr) (stopwords : List PyStr) : List PyStr :=
  let token_list := texts.flatMap (fun s => splitOnChar ' ' (removePunctuation s))
  let token_list := token_list.filter (fun t => !(t == []))
  if stopwords.isEmpty then token_list
  else token_list.filter (fun t => !(stopwords.contains t))

/-- One step of `collections.Counter`: count a token, keeping keys in
first-encountered order. -/
def counterStep (acc : List (PyStr × Nat)) (t : PyStr) : List (PyStr × Nat) :=
  if keyMem t acc then
    acc.map (fun p => if p.1 == t then (p.1, p.2 + 1) else p)
  else acc ++ [(t, 1)]

/-- `collections.Counter(token_list)` as an ordered association list. -/
def counterList (l : List PyStr) : List (PyStr × Nat) :=
  l.foldl counterStep []

/-- Stable insertion for descending-count order: the inserted element goes
after strictly greater counts and before equal ones, matching the stability of
`Counter.most_common` (ties keep first-encountered order). -/
def insDesc (x : PyStr × Nat) : List (PyStr × Nat) → List (PyStr × Nat)
  | [] => [x]
  | y :: ys => if x.2 < y.2 then y :: insDesc x ys else x :: y :: ys

/-- Stable sort by descending count. -/
def sortDesc : List (PyStr × Nat) → List (PyStr × Nat)
  | [] => []
  | x :: xs => insDesc x (sortDesc xs)

/-- `Counter(...).most_common(ranking)`. -/
def most_common (cnt : List (PyStr × Nat)) (ranking : Nat) : List (PyStr × Nat) :=
  (sortDesc cnt).take ranking

/-- `most_common_token`: tokenize, count and rank. -/
def most_common_token (texts : List PyStr) (stopwords : List PyStr) (ranking : Nat) :
    List (PyStr × Nat) :=
  most_common (counterList (processed_tokens texts stopwords)) ranking

/-- One row of the bulk-edit CSV, as the dict built in
`write_annotation_csv` (insertion-ordered). -/
abbrev CsvRec := List (PyStr × PyStr)

/-- Read a field of a CSV row by column name. -/
def recField (rec : CsvRec) (k : PyStr) : PyStr :=
  (lookupVal rec k).getD []

/-- The record built in `write_annotation_csv`'s `only_missing_prop_values`
branch (key order `id`, `annotation_collection`, `tag`, `text`, `property`,
`values`; the values field is written empty). -/
def missing_export_record (acName : PyStr) (an : Annotation) (q : PyStr × List PyStr) : CsvRec :=
  [(pyStr "id", an.uuid),
   (pyStr "annotation_collection", acName),
   (pyStr "tag", an.tag.name),
   (pyStr "text", clean_text_in_ac_df an.text),
   (pyStr "property", q.1),
   (pyStr "values", [])]

/-- The record built in `write_annotation_csv`'s other branch (key order
`id`, `annotation_collection`, `text`, `tag`, `property`, `values`; the
values field is the comma-join of the property's values). -/
def full_export_record (acName : PyStr) (an : Annotation) (q : PyStr × List PyStr) : CsvRec :=
  [(pyStr "id", an.uuid),
   (pyStr "annotation_collection", acName),
   (pyStr "text", clean_text_in_ac_df an.text),
   (pyStr "tag", an.tag.name),
   (pyStr "property", q.1),
   (pyStr "values", joinChar ',' q.2)]

/-- The property names selected by `write_annotation_csv`: for `property='all'`
(modelled as `none`), every `'prop:'` column of the collection's DataFrame
with the `'prop:'` substring removed; otherwise the single given name. -/
def selected_properties (ac : AnnotationCollection) (property : Option PyStr) : List PyStr :=
  match property with
  | none =>
    (dfColumnsOf ac.df).filterMap (fun col =>
      if lit_search (pyStr "prop:") col then
        some (pyReplace (pyStr "prop:") [] col)
      else none)
  | some p => [p]

/-- The `annotation_output` list of `write_annotation_csv`: one dict per
(annotation, selected property) pair.  Note the differing key order of the two
branches in the source: `tag` before `text` when `only_missing_prop_values` is
set, `text` before `tag` otherwise. -/
def annotation_output (anns : List Annotation) (acName : PyStr)
    (props : List PyStr) (only_missing : Bool) : List CsvRec :=
  anns.flatMap (fun an =>
    an.properties.filterMap (fun q =>
      if props.contains q.1 then
        if only_missing then
          if q.2.length < 1 then some (missing_export_record acName an q)
          else none
        else some (full_export_record acName an q)
      else none))

/-- The records `write_annotation_csv` turns into a DataFrame: annotations
filtered by the selected tags (`tags='all'` modelled as `none`), then one
record per matching property. -/
def write_records (ac : AnnotationCollection) (tags : Option (List PyStr))
    (property : Option PyStr) (only_missing : Bool) : List CsvRec :=
  let anns :=
    match tags with
    | none => ac.annotations
    | some ts => ac.annotations.filter (fun an => ts.contains an.tag.name)
  annotation_output anns ac.name (selected_properties ac property) only_missing

/-- The column order `pd.DataFrame(list_of_dicts)` produces: keys in order of
first appearance across the records. -/
def record_columns (recs : List CsvRec) : List PyStr :=
  recs.foldl (fun acc r =>
    acc ++ ((r.map Prod.fst).filter (fun k => !(acc.contains k)))) []

/-- The written CSV file: separator, header and field rows. -/
structure CsvFile where
  sep : Char
  header : List PyStr
  rows : List (List PyStr)
deriving DecidableEq

/-- `annotation_df.to_csv(..., index=None, sep=";")`. -/
def df_to_csv (recs : List CsvRec) : CsvFile :=
  { sep := ';', header := record_columns recs,
    rows := recs.map (fun r => (record_columns recs).map (fun c => recField r c)) }

/-- `write_annotation_csv`, composed: records then CSV. -/
def write_annotation_csv (ac : AnnotationCollection) (tags : Option (List PyStr))
    (property : Option PyStr) (only_missing : Bool) : CsvFile :=
  df_to_csv (write_records ac tags property only_missing)

/-- The default strings `pandas.read_csv` treats as missing values. -/
def pandas_default_na : List PyStr :=
  [pyStr "", pyStr "#N/A", pyStr "#N/A N/A", pyStr "#NA", pyStr "-1.#IND",
   pyStr "-1.#QNAN", pyStr "-NaN", pyStr "-nan", pyStr "1.#IND", pyStr "1.#QNAN",
   pyStr "<NA>", pyStr "N/A", pyStr "NA", pyStr "NULL", pyStr "NaN",
   pyStr "None", pyStr "n/a", pyStr "nan", pyStr "null"]

/-- ASCII lower-casing of one character, for case-insensitive token tests. -/
def ascii_lower (c : Char) : Char :=
  if 'A' ≤ c ∧ c ≤ 'Z' then Char.ofNat (c.toNat + 32) else c

/-- The characters a field can consist of and still be a candidate for pandas
numeric conversion: digits, sign, decimal point, exponent letters and
whitespace pandas trims around numbers. -/
def pandas_numeric_chars : List Char := pyStr "0123456789+-.eE \x09"

/-- Word-shaped fields pandas can turn into non-strings, compared after ASCII
lower-casing: the case-insensitive float spellings of nan/inf and the boolean
literals. -/
def pandas_word_nonstrings : List PyStr :=
  [pyStr "nan", pyStr "+nan", pyStr "-nan", pyStr "inf", pyStr "+inf",
   pyStr "-inf", pyStr "infinity", pyStr "+infinity", pyStr "-infinity",
   pyStr "true", pyStr "false"]

/-- Modelled: an over-approximation of the CSV fields `pandas.read_csv` can
read back as a non-string cell — candidates for numeric dtype inference
(digit/sign/decimal/exponent/whitespace characters only, or a case variant of
nan/inf/infinity), boolean inference (a case variant of true/false), and the
default NA markers.  A field outside this set is certainly read back as the
same string, so a column containing such a field certainly keeps `object`
dtype. -/
def mayBeNonString (s : PyStr) : Bool :=
  s.all (fun c => pandas_numeric_chars.contains c)
    || pandas_word_nonstrings.contains (s.map ascii_lower)
    || pandas_default_na.contains s

/-- Modelled: `pandas.read_csv` parsing of one column.  pandas infers a
non-string dtype per column: when every field of a column is a non-string
candidate, every cell of the column is read back as a non-string (`none`);
otherwise the column keeps `object` dtype and each cell is the field string,
with the default NA markers still read as missing (`none`).  Because
`mayBeNonString` over-approximates pandas' conversions, the model is exact
for every column that contains a field outside that set; for wholly
candidate-shaped columns it is conservative (non-string), never more
permissive than pandas.  `to_csv`/`read_csv` quoting is lossless for
`sep=';'`, so fields survive the file unchanged. -/
def parse_csv_column (fields : List PyStr) : List (Option PyStr) :=
  if fields.all (fun s => mayBeNonString s) then fields.map (fun _ => none)
  else fields.map (fun s => if pandas_default_na.contains s then none else some s)

/-- One row of the table `pd.read_csv` hands to `read_annotation_csv`'s loop:
each cell is either a string (`some`) or any non-string value — NaN, a number
or a bool (`none`); the loop only ever distinguishes strings from the rest
(`isinstance(row['values'], str)`, and a non-string key misses every entry of
the string-keyed annotation dict). -/
structure ParsedRow where
  id : Option PyStr
  tag : Option PyStr
  prop : Option PyStr
  values : Option PyStr
deriving DecidableEq

/-- Assemble the four parsed columns back into rows. -/
def zipCols : List (Option PyStr) → List (Option PyStr) → List (Option PyStr)
    → List (Option PyStr) → List ParsedRow
  | i :: is, t :: ts, p :: ps, v :: vs =>
    { id := i, tag := t, prop := p, values := v } :: zipCols is ts ps vs
  | _, _, _, _ => []

/-- Modelled: `pd.read_csv(filename, sep=";")` applied to the written
records — per-column parsing with dtype inference, reassembled into rows. -/
def parse_csv_records (recs : List CsvRec) : List ParsedRow :=
  zipCols
    (parse_csv_column (recs.map (fun r => recField r (pyStr "id"))))
    (parse_csv_column (recs.map (fun r => recField r (pyStr "tag"))))
    (parse_csv_column (recs.map (fun r => recField r (pyStr "property"))))
    (parse_csv_column (recs.map (fun r => recField r (pyStr "values"))))

/-- One `set_property_values` call made during `read_annotation_csv`: the
receiving annotation's uuid, and the `tag`, `prop` and `value` arguments as
read from the table (`tag`/`prop` are whatever cell pandas produced). -/
structure MutationEvent where
  target_uuid : PyStr
  tag : Option PyStr
  prop : Option PyStr
  value : List PyStr
deriving DecidableEq

/-- `self.annotation_dict()[u]`: the Python dict `{an.uuid: an}` keeps the
last annotation for a duplicated uuid. -/
def an_dict_find (anns : List Annotation) (u : PyStr) : Option Annotation :=
  anns.reverse.find? (fun an => an.uuid == u)

/-- The per-row behaviour of `read_annotation_csv`'s loop body: `none` when
the row is missed — `values` not read back as a string
(`isinstance(row['values'], str)` fails), or a non-string identifier cell, or
an identifier absent from the annotation dict (both raise `KeyError`) —
otherwise the `set_property_values` call it makes, with the comma-joined
values split back apart. -/
def evtOf (anns : List Annotation) (row : ParsedRow) : Option MutationEvent :=
  match row.values with
  | none => none
  | some s =>
    match row.id with
    | none => none
    | some u =>
      match an_dict_find anns u with
      | none => none
      | some an =>
        some { target_uuid := an.uuid, tag := row.tag, prop := row.prop,
               value := splitOnChar ',' s }

/-- Whether a row is updated (`true`) rather than missed (`false`). -/
def row_ok (anns : List Annotation) (row : ParsedRow) : Bool :=
  (evtOf anns row).isSome

/-- The running state of `read_annotation_csv`: the mutations applied so far
and the two counters. -/
structure ReadResult where
  events : List MutationEvent
  updated : Nat
  missed : Nat
deriving DecidableEq

/-- One iteration of `read_annotation_csv`'s row loop. -/
def read_step (anns : List Annotation) (acc : ReadResult) (row : ParsedRow) : ReadResult :=
  match evtOf anns row with
  | some e => { acc with events := acc.events ++ [e], updated := acc.updated + 1 }
  | none => { acc with missed := acc.missed + 1 }

/-- `read_annotation_csv` over the parsed table: apply every row in order,
counting updated and missed rows; the final counts are the reported result. -/
def read_annotation_csv (anns : List Annotation) (rows : List ParsedRow) : ReadResult :=
  rows.foldl (read_step anns) { events := [], updated := 0, missed := 0 }

/-- A Python dict's keys are distinct (holds for every real dict; stated as a
hypothesis because ordered association lists can express the impossible). -/
abbrev keysNodup {α : Type} (d : List (PyStr × α)) : Prop :=
  (d.map Prod.fst).Nodup

/-- The alignment invariant of one dynamic property column over a processed
prefix of the `properties` column: its length equals the number of processed
rows and its entry for row `i` is row `i`'s value list for that property, or
the missing marker `['nan']`. -/
def colInv (items : List PropDict) (p : PyStr × List (List PyStr)) : Prop :=
  p.2.length = items.length ∧
  ∀ i, i < items.length →
    p.2.getD i [] = (lookupVal (items.getD i []) p.1).getD nanv

/-- The effect of `addItemKeys` on a column already present: append the
current row's value list for its property, if the row has that property. -/
def updWith (item : PropDict) (p : PyStr × List (List PyStr)) : PyStr × List (List PyStr) :=
  match lookupVal item p.1 with
  | some v => (p.1, p.2 ++ [v])
  | none => p

/-- The columns `addItemKeys` creates for the properties of the current row
not seen before: backfilled with `index` missing markers. -/
def newColsOf (index : Nat) (acc : PropsTable) (item : PropDict) : PropsTable :=
  (item.filter (fun q => !(keyMem q.1 acc))).map
    (fun q => (q.1, List.replicate index nanv ++ [q.2]))

/-- The CSV column order the spec documents:
`id;annotation_collection;tag;text;property;values`. -/
def claimed_csv_columns : List PyStr :=
  [pyStr "id", pyStr "annotation_collection", pyStr "tag", pyStr "text",
   pyStr "property", pyStr "values"]

/-- The CSV column order the `only_missing_prop_values=False` branch actually
produces: `text` precedes `tag`. -/
def swapped_csv_columns : List PyStr :=
  [pyStr "id", pyStr "annotation_collection", pyStr "text", pyStr "tag",
   pyStr "property", pyStr "values"]

/-- Example tag without a parent. -/
def exTagX : Tag := { name := pyStr "X", full_path := pyStr "P>X", parent := none }

/-- Example tag with a parent named `P`. -/
def exTagP : Tag :=
  { name := pyStr "Y", full_path := pyStr "P>Y", parent := some { name := pyStr "P" } }

/-- Example annotation holding the one-property dict `{'p': ['a,b']}`: a
property value containing a comma. -/
def c2a : Annotation :=
  { uuid := pyStr "A", author := pyStr "al", tag := exTagX,
    properties := [(pyStr "p", [pyStr "a,b"])], pretext := pyStr "",
    text := pyStr "t", posttext := pyStr "", start_point := 0, end_point := 1,
    date := pyStr "d" }

/-- Example annotation with a plain, comma-free property value. -/
def c2b : Annotation :=
  { uuid := pyStr "B", author := pyStr "al", tag := exTagX,
    properties := [(pyStr "p", [pyStr "u", pyStr "w"])], pretext := pyStr "",
    text := pyStr "t", posttext := pyStr "", start_point := 0, end_point := 1,
    date := pyStr "d" }

/-- Example table row whose tag path is `abc`. -/
def c3row : RawRow :=
  { document := pyStr "d", annotation_collection := pyStr "c",
    annotator := pyStr "al", tag := pyStr "X", tag_path := pyStr "abc",
    properties := [], left_context := pyStr "", annotation_txt := pyStr "t",
    right_context := pyStr "", start_point := 0, end_point := 1,
    date := pyStr "d" }

/-- Example table holding the single row `c3row`. -/
def c3df : ACDf := { rows := [c3row], hasPropsCol := false, propCols := [] }

/-- Example annotation with no properties. -/
def c4a : Annotation :=
  { uuid := pyStr "C", author := pyStr "al", tag := exTagX, properties := [],
    pretext := pyStr "", text := pyStr "t", posttext := pyStr "",
    start_point := 0, end_point := 1, date := pyStr "d" }

/-- Example project state whose collection has no `annotations/` directory. -/
def c4fsE : ProjectFs :=
  { project_uuid := pyStr "PR", ac_uuid := pyStr "AC", headerExists := true,
    header_name := pyStr "col", text_title := pyStr "doc",
    annotationsDirExists := false, loadedAnnotations := [] }

/-- Example project state whose collection has one annotation. -/
def c4fsN : ProjectFs :=
  { project_uuid := pyStr "PR", ac_uuid := pyStr "AC", headerExists := true,
    header_name := pyStr "col", text_title := pyStr "doc",
    annotationsDirExists := true, loadedAnnotations := [c4a] }

/-- Example project state with no `header.json`. -/
def c9fs : ProjectFs :=
  { project_uuid := pyStr "PR", ac_uuid := pyStr "AC", headerExists := false,
    header_name := pyStr "col", text_title := pyStr "doc",
    annotationsDirExists := true, loadedAnnotations := [] }

/-- Example annotation whose property name itself contains `prop:`. -/
def c7a : Annotation :=
  { uuid := pyStr "D", author := pyStr "al", tag := exTagX,
    properties := [(pyStr "aprop:b", [pyStr "v"])], pretext := pyStr "",
    text := pyStr "t", posttext := pyStr "", start_point := 0, end_point := 1,
    date := pyStr "d" }

/-- Example annotation whose parentless tag is named `X`. -/
def c10a : Annotation :=
  { uuid := pyStr "E", author := pyStr "al", tag := exTagX, properties := [],
    pretext := pyStr "", text := pyStr "t", posttext := pyStr "",
    start_point := 0, end_point := 1, date := pyStr "d" }

/-- Example annotation whose tag has the parent `P`. -/
def c10b : Annotation :=
  { uuid := pyStr "F", author := pyStr "al", tag := exTagP, properties := [],
    pretext := pyStr "", text := pyStr "t", posttext := pyStr "",
    start_point := 0, end_point := 1, date := pyStr "d" }

/-- Example annotation for the property-column claims: one property `p`. -/
def c1a : Annotation :=
  { uuid := pyStr "G", author := pyStr "al", tag := exTagX,
    properties := [(pyStr "p", [pyStr "1"])], pretext := pyStr "",
    text := pyStr "t", posttext := pyStr "", start_point := 0, end_point := 1,
    date := pyStr "d" }

/-- Example annotation for the property-column claims: no properties. -/
def c1b : Annotation :=
  { uuid := pyStr "H", author := pyStr "al", tag := exTagX, properties := [],
    pretext := pyStr "", text := pyStr "t", posttext := pyStr "",
    start_point := 0, end_point := 1, date := pyStr "d" }

theorem map_congr_mem {α β : Type} {f g : α → β} {l : List α}
    (h : ∀ a ∈ l, f a = g a) : l.map f = l.map g := by
  induction l with
  | nil => rfl
  | cons a t ih =>
    simp only [List.map_cons]
    rw [h a (by simp), ih (fun x hx => h x (by simp [hx]))]

theorem filter_congr_mem {α : Type} {p q : α → Bool} {l : List α}
    (h : ∀ a ∈ l, p a = q a) : l.filter p = l.filter q := by
  induction l with
  | nil => rfl
  | cons a t ih =>
    simp only [List.filter_cons]
    rw [h a (by simp), ih (fun x hx => h x (by simp [hx]))]

theorem find?_congr_mem {α : Type} {p q : α → Bool} {l : List α}
    (h : ∀ a ∈ l, p a = q a) : l.find? p = l.find? q := by
  induction l with
  | nil => rfl
  | cons a t ih =>
    simp only [List.find?_cons]
    rw [h a (by simp), ih (fun x hx => h x (by simp [hx]))]

theorem filterMap_eq_map_of_some {α β : Type} {f : α → Option β} {g : α → β} {l : List α}
    (h : ∀ a ∈ l, f a = some (g a)) : l.filterMap f = l.map g := by
  induction l with
  | nil => rfl
  | cons a t ih =>
    rw [List.filterMap_cons, h a (by simp), List.map_cons,
        ih (fun x hx => h x (by simp [hx]))]

theorem getD_append_lt {α : Type} (l l' : List α) (d : α) :
    ∀ i, i < l.length → (l ++ l').getD i d = l.getD i d := by
  induction l with
  | nil => intro i hi; simp at hi
  | cons a t ih =>
    intro i hi
    cases i with
    | zero => rfl
    | succ j =>
      simp only [List.cons_append, List.getD_cons_succ]
      exact ih j (by simpa using hi)

theorem getD_append_len {α : Type} (l l' : List α) (d : α) :
    (l ++ l').getD l.length d = l'.getD 0 d := by
  induction l with
  | nil => rfl
  | cons a t ih => simpa using ih

theorem getD_replicate_lt {α : Type} (x d : α) :
    ∀ n i, i < n → (List.replicate n x).getD i d = x := by
  intro n
  induction n with
  | zero => intro i hi; omega
  | succ m ih =>
    intro i hi
    cases i with
    | zero => rfl
    | succ j =>
      simp only [List.replicate_succ, List.getD_cons_succ]
      exact ih j (by omega)

theorem getD_mem {α : Type} (l : List α) (d : α) :
    ∀ i, i < l.length → l.getD i d ∈ l := by
  induction l with
  | nil => intro i hi; simp at hi
  | cons a t ih =>
    intro i hi
    cases i with
    | zero => simp
    | succ j =>
      simp only [List.getD_cons_succ]
      exact List.mem_cons_of_mem a (ih j (by simpa using hi))

theorem getD_map_lt {α β : Type} (f : α → β) (l : List α) (d : β) (d' : α) :
    ∀ i, i < l.length → (l.map f).getD i d = f (l.getD i d') := by
  induction l with
  | nil => intro i hi; simp at hi
  | cons a t ih =>
    intro i hi
    cases i with
    | zero => rfl
    | succ j =>
      simp only [List.map_cons, List.getD_cons_succ]
      exact ih j (by simpa using hi)

theorem getD_eq_get {α : Type} (l : List α) (d : α) :
    ∀ i (hi : i < l.length), l.getD i d = l.get ⟨i, hi⟩ := by
  induction l with
  | nil => intro i hi; simp at hi
  | cons a t ih =>
    intro i hi
    cases i with
    | zero => rfl
    | succ j => simpa only [List.getD_cons_succ] using ih j (by simpa using hi)

theorem find?_map_nodup {α β : Type} [BEq β] [LawfulBEq β] (f : α → β) :
    ∀ {l : List α}, (l.map f).Nodup → ∀ {a}, a ∈ l →
      l.find? (fun x => f x == f a) = some a := by
  intro l
  induction l with
  | nil => intro _ a ha; simp at ha
  | cons b t ih =>
    intro hnd a ha
    rw [List.map_cons, List.nodup_cons] at hnd
    rcases List.mem_cons.mp ha with rfl | hat
    · simp [List.find?_cons]
    · have hne : (f b == f a) = false := by
        rcases h : f b == f a with _ | _
        · rfl
        · exact absurd (eq_of_beq h ▸ List.mem_map_of_mem f hat) hnd.1
      simp only [List.find?_cons, hne, cond_false]
      exact ih hnd.2 hat

theorem keyMem_iff_lookup {α : Type} (k : PyStr) (d : List (PyStr × α)) :
    keyMem k d = (lookupVal d k).isSome := by
  induction d with
  | nil => rfl
  | cons p t ih =>
    simp only [keyMem, lookupVal, List.any_cons, List.find?_cons]
    cases h : p.1 == k with
    | true => simp [h]
    | false =>
      simp only [h, Bool.false_or, cond_false]
      simpa [keyMem, lookupVal] using ih

theorem keyMem_of_mem {α : Type} {q : PyStr × α} {d : List (PyStr × α)}
    (h : q ∈ d) : keyMem q.1 d = true := by
  simp only [keyMem, List.any_eq_true]
  exact ⟨q, h, by simp⟩

theorem exists_of_keyMem {α : Type} {k : PyStr} {d : List (PyStr × α)}
    (h : keyMem k d = true) : ∃ q ∈ d, q.1 = k := by
  simp only [keyMem, List.any_eq_true] at h
  rcases h with ⟨q, hq, hbe⟩
  exact ⟨q, hq, eq_of_beq hbe⟩

theorem lookupVal_eq_none {α : Type} {k : PyStr} {d : List (PyStr × α)}
    (h : keyMem k d = false) : lookupVal d k = none := by
  rw [keyMem_iff_lookup] at h
  exact Option.not_isSome_iff_eq_none.mp (by simp [h])

theorem lookupVal_of_mem_nodup {α : Type} {d : List (PyStr × α)}
    (hnd : keysNodup d) {q : PyStr × α} (h : q ∈ d) :
    lookupVal d q.1 = some q.2 := by
  have hfind := find?_map_nodup (Prod.fst (β := α)) hnd h
  simp only [lookupVal, hfind]
  rfl

theorem keyMem_map_fst {α β : Type} {f : (PyStr × α) → (PyStr × β)}
    (hf : ∀ p, (f p).1 = p.1) (x : PyStr) (l : List (PyStr × α)) :
    keyMem x (l.map f) = keyMem x l := by
  induction l with
  | nil => rfl
  | cons p t ih =>
    show ((f p).1 == x || keyMem x (t.map f)) = (p.1 == x || keyMem x t)
    rw [hf p, ih]

theorem keyMem_append {α : Type} (x : PyStr) (A B : List (PyStr × α)) :
    keyMem x (A ++ B) = (keyMem x A || keyMem x B) := by
  simp [keyMem, List.any_append]

theorem dropPre_append_self : ∀ (pat y : PyStr), dropPre pat (pat ++ y) = some y
  | [], _ => rfl
  | p :: ps, y => by simp [dropPre, dropPre_append_self ps y]

theorem lit_search_append (pat : PyStr) :
    ∀ (x y : PyStr), lit_search pat (x ++ pat ++ y) = true := by
  intro x
  induction x with
  | nil =>
    intro y
    simp only [List.nil_append]
    cases h : pat ++ y with
    | nil =>
      rcases List.append_eq_nil.mp h with ⟨rfl, rfl⟩
      simp [lit_search, dropPre]
    | cons c cs =>
      show ((dropPre pat (c :: cs)).isSome || lit_search pat cs) = true
      rw [← h, dropPre_append_self]
      simp
  | cons a xs ih =>
    intro y
    have hstep : lit_search pat ((a :: xs) ++ pat ++ y)
        = ((dropPre pat ((a :: xs) ++ pat ++ y)).isSome
            || lit_search pat (xs ++ pat ++ y)) := rfl
    rw [hstep, ih y]
    simp

theorem lit_search_prefixed (pat y : PyStr) : lit_search pat (pat ++ y) = true := by
  have := lit_search_append pat [] y
  simpa using this

theorem pyReplaceAux_no_occur {pat rep : PyStr} :
    ∀ (s : PyStr) (n : Nat), lit_search pat s = false → pyReplaceAux pat rep n s = s := by
  intro s
  induction s with
  | nil => intro n _; cases n <;> rfl
  | cons c cs ih =>
    intro n h
    cases n with
    | zero => rfl
    | succ m =>
      rw [lit_search, Bool.or_eq_false_iff] at h
      have hpat : pat.isEmpty = false := by
        cases pat with
        | nil => simp [dropPre] at h
        | cons _ _ => rfl
      have hdp : dropPre pat (c :: cs) = none := by
        cases hd : dropPre pat (c :: cs) with
        | none => rfl
        | some r => rw [hd] at h; simp at h
      simp only [pyReplaceAux, hpat, Bool.false_eq_true, if_false, hdp]
      rw [ih m h.2]

theorem pyReplace_no_occur (pat rep s : PyStr) (h : lit_search pat s = false) :
    pyReplace pat rep s = s :=
  pyReplaceAux_no_occur s s.length h

theorem pyReplace_strip (pat k : PyStr) (hp : pat ≠ [])
    (h : lit_search pat k = false) : pyReplace pat [] (pat ++ k) = k := by
  cases pat with
  | nil => exact absurd rfl hp
  | cons p ps =>
    show pyReplaceAux (p :: ps) [] ((p :: ps) ++ k).length ((p :: ps) ++ k) = k
    simp only [List.cons_append, List.length_cons]
    rw [pyReplaceAux]
    have hdp : dropPre (p :: ps) (p :: (ps ++ k)) = some k := by
      simpa using dropPre_append_self (p :: ps) k
    simp only [List.isEmpty_cons, hdp, Bool.false_eq_true, if_false, List.nil_append]
    exact pyReplaceAux_no_occur k _ h

theorem re_match_here_no_dot :
    ∀ {pat : PyStr}, (∀ ch ∈ pat, ch ≠ '.') →
      ∀ s, re_match_here pat s = (dropPre pat s).isSome := by
  intro pat
  induction pat with
  | nil => intro _ s; rfl
  | cons p ps ih =>
    intro h s
    cases s with
    | nil => rfl
    | cons c cs =>
      have hpd : (p == '.') = false := by
        have hp : p ≠ '.' := h p (by simp)
        simpa using hp
      simp only [re_match_here, dropPre, hpd, Bool.false_or]
      cases hc : p == c with
      | false => simp
      | true => simpa using ih (fun ch hch => h ch (by simp [hch])) cs

theorem re_search_no_dot {pat : PyStr} (h : ∀ ch ∈ pat, ch ≠ '.') :
    ∀ s, re_search pat s = lit_search pat s := by
  intro s
  induction s with
  | nil => simp [re_search, lit_search, re_match_here_no_dot h]
  | cons c cs ih => simp [re_search, lit_search, re_match_here_no_dot h, ih]

theorem maskFilter_map_self {α : Type} (p : α → Bool) (l : List α) :
    maskFilter (l.map p) l = l.filter p := by
  induction l with
  | nil => rfl
  | cons a t ih =>
    simp only [List.map_cons, maskFilter, List.zip_cons_cons, List.filterMap_cons,
      List.filter_cons]
    cases h : p a <;> simp [h] <;> simpa [maskFilter] using ih

theorem splitOnCharAux_push (c : Char) {v : PyStr} (hv : c ∉ v) :
    ∀ (s acc : PyStr), splitOnCharAux c (v ++ s) acc = splitOnCharAux c s (v.reverse ++ acc) := by
  induction v with
  | nil => intro s acc; rfl
  | cons x xs ih =>
    intro s acc
    have hx : (x == c) = false := by
      have : x ≠ c := fun hxc => hv (by simp [hxc])
      simpa using this
    show splitOnCharAux c (x :: (xs ++ s)) acc = splitOnCharAux c s ((x :: xs).reverse ++ acc)
    rw [splitOnCharAux, hx]
    simp only [Bool.false_eq_true, if_false]
    rw [ih (fun hc => hv (by simp [hc])) s (x :: acc)]
    simp [List.reverse_cons, List.append_assoc]

theorem split_join (c : Char) :
    ∀ (vals : List PyStr), vals ≠ [] → (∀ v ∈ vals, c ∉ v) →
      splitOnChar c (joinChar c vals) = vals := by
  intro vals
  induction vals with
  | nil => intro h _; exact absurd rfl h
  | cons v rest ih =>
    intro _ hc
    cases rest with
    | nil =>
      show splitOnCharAux c (joinChar c [v]) [] = [v]
      have hv : c ∉ v := hc v (by simp)
      rw [show joinChar c [v] = v ++ [] by simp [joinChar]]
      rw [splitOnCharAux_push c hv [] []]
      simp [splitOnCharAux]
    | cons w rest' =>
      show splitOnCharAux c (joinChar c (v :: w :: rest')) [] = v :: w :: rest'
      have hv : c ∉ v := hc v (by simp)
      rw [show joinChar c (v :: w :: rest') = v ++ (c :: joinChar c (w :: rest')) from rfl]
      rw [splitOnCharAux_push c hv _ []]
      simp only [splitOnCharAux, beq_self_eq_true, if_true]
      rw [List.append_nil, List.reverse_reverse]
      exact congrArg (v :: ·) (ih (by simp) (fun x hx => hc x (by simp [hx])))

theorem lookupVal_cons {α : Type} (k x : PyStr) (v : α) (rest : List (PyStr × α)) :
    lookupVal ((k, v) :: rest) x = if k == x then some v else lookupVal rest x := by
  simp only [lookupVal, List.find?_cons]
  cases h : (k == x) <;> simp [h]

theorem updWith_fst (item : PropDict) (p : PyStr × List (List PyStr)) :
    (updWith item p).1 = p.1 := by
  unfold updWith
  cases lookupVal item p.1 <;> rfl

theorem keyMem_false_of_nodup_head {rest : PropDict} {k : PyStr} {v : List PyStr}
    (hnd : keysNodup ((k, v) :: rest)) : keyMem k rest = false := by
  have hk : k ∉ rest.map Prod.fst := (List.nodup_cons.mp hnd).1
  cases h : keyMem k rest with
  | false => rfl
  | true =>
    rcases exists_of_keyMem h with ⟨q, hq, hq1⟩
    exact absurd (hq1 ▸ List.mem_map_of_mem Prod.fst hq) hk

theorem addItemKeys_eq :
    ∀ (item : PropDict), keysNodup item →
      ∀ (acc : PropsTable) (index : Nat),
        addItemKeys index item acc = acc.map (updWith item) ++ newColsOf index acc item := by
  intro item
  induction item with
  | nil =>
    intro _ acc index
    show acc = acc.map (updWith []) ++ newColsOf index acc []
    rw [show newColsOf index acc [] = [] from rfl, List.append_nil]
    rw [show acc.map (updWith []) = acc.map id from
      map_congr_mem (fun p _ => by simp [updWith, lookupVal])]
    simp
  | cons kv rest ih =>
    intro hnd acc index
    obtain ⟨k, v⟩ := kv
    have hndrest : keysNodup rest := (List.nodup_cons.mp hnd).2
    have hkrest : keyMem k rest = false := keyMem_false_of_nodup_head hnd
    have hlkrest : lookupVal rest k = none := lookupVal_eq_none hkrest
    cases hk : keyMem k acc with
    | true =>
      rw [show addItemKeys index ((k, v) :: rest) acc
          = addItemKeys index rest
              (acc.map (fun p => if p.1 == k then (p.1, p.2 ++ [v]) else p)) by
        simp [addItemKeys, hk]]
      rw [ih hndrest _ index]
      have hA : (acc.map (fun p => if p.1 == k then (p.1, p.2 ++ [v]) else p)).map (updWith rest)
          = acc.map (updWith ((k, v) :: rest)) := by
        rw [List.map_map]
        apply map_congr_mem
        intro p _
        show updWith rest (if p.1 == k then (p.1, p.2 ++ [v]) else p)
            = updWith ((k, v) :: rest) p
        cases hpk : (p.1 == k) with
        | true =>
          have hpk' : p.1 = k := eq_of_beq hpk
          simp only [if_true]
          unfold updWith
          rw [lookupVal_cons, hpk']
          simp [hlkrest]
        | false =>
          have hkp : (k == p.1) = false := by
            cases hkp : (k == p.1) with
            | false => rfl
            | true => rw [eq_of_beq hkp] at hpk; simp at hpk
          simp only [Bool.false_eq_true, if_false]
          unfold updWith
          rw [lookupVal_cons, hkp]
          simp
      have hB : newColsOf index (acc.map (fun p => if p.1 == k then (p.1, p.2 ++ [v]) else p)) rest
          = newColsOf index acc ((k, v) :: rest) := by
        unfold newColsOf
        rw [List.filter_cons]
        simp only [hk, Bool.not_true, Bool.false_eq_true, if_false]
        rw [filter_congr_mem (fun q _ => by
          rw [keyMem_map_fst (fun p => by cases hp : (p.1 == k) <;> simp [hp]) q.1 acc])]
      rw [hA, hB]
    | false =>
      rw [show addItemKeys index ((k, v) :: rest) acc
          = addItemKeys index rest (acc ++ [(k, List.replicate index nanv ++ [v])]) by
        simp [addItemKeys, hk]]
      rw [ih hndrest _ index]
      rw [List.map_append]
      have hnc : [(k, List.replicate index nanv ++ [v])].map (updWith rest)
          = [(k, List.replicate index nanv ++ [v])] := by
        simp only [List.map_cons, List.map_nil]
        unfold updWith
        simp [hlkrest]
      have hpne : ∀ p ∈ acc, (p.1 == k) = false := by
        intro p hp
        cases hpk : (p.1 == k) with
        | false => rfl
        | true =>
          have : keyMem k acc = true := by
            simp only [keyMem, List.any_eq_true]
            exact ⟨p, hp, hpk⟩
          rw [this] at hk; simp at hk
      have hA : acc.map (updWith rest) = acc.map (updWith ((k, v) :: rest)) := by
        apply map_congr_mem
        intro p hp
        have hkp : (k == p.1) = false := by
          cases hkp : (k == p.1) with
          | false => rfl
          | true =>
            have := hpne p hp
            rw [eq_of_beq hkp] at this
            simp at this
        unfold updWith
        rw [lookupVal_cons, hkp]
        simp
      have hB : newColsOf index (acc ++ [(k, List.replicate index nanv ++ [v])]) rest
          = newColsOf index acc rest := by
        unfold newColsOf
        have hfc : ∀ q ∈ rest,
            (!(keyMem q.1 (acc ++ [(k, List.replicate index nanv ++ [v])])))
              = (!(keyMem q.1 acc)) := by
          intro q hq
          rw [keyMem_append]
          have hqk : (k == q.1) = false := by
            cases hqk : (k == q.1) with
            | false => rfl
            | true =>
              have hkm : keyMem k rest = true := by
                simp only [keyMem, List.any_eq_true]
                refine ⟨q, hq, ?_⟩
                rw [← eq_of_beq hqk]
                simp
              rw [hkm] at hkrest
              simp at hkrest
          have hsing : keyMem q.1 [(k, List.replicate index nanv ++ [v])] = false := by
            simp [keyMem, hqk]
          rw [hsing]
          simp
        rw [filter_congr_mem hfc]
      have hC : newColsOf index acc ((k, v) :: rest)
          = (k, List.replicate index nanv ++ [v]) :: newColsOf index acc rest := by
        unfold newColsOf
        rw [List.filter_cons]
        simp [hk]
      rw [hnc, hA, hB, hC]
      simp

theorem getD_append_at {α : Type} (l l' : List α) (d : α) (i : Nat)
    (hi : i = l.length) : (l ++ l').getD i d = l'.getD 0 d := by
  subst hi
  exact getD_append_len l l' d

theorem padMissing_append (item : PropDict) (A B : PropsTable) :
    padMissing item (A ++ B) = padMissing item A ++ padMissing item B := by
  simp [padMissing]

theorem keyMem_padMissing (x : PyStr) (item : PropDict) (acc : PropsTable) :
    keyMem x (padMissing item acc) = keyMem x acc := by
  unfold padMissing
  exact keyMem_map_fst (fun p => by cases hp : keyMem p.1 item <;> simp [hp]) x acc

theorem step_inv (processed : List PropDict) (item : PropDict) (hnd : keysNodup item)
    (acc : PropsTable)
    (hcol : ∀ p ∈ acc, colInv processed p)
    (hcomp : ∀ it ∈ processed, ∀ q ∈ it, keyMem q.1 acc = true) :
    (∀ p ∈ padMissing item (addItemKeys processed.length item acc),
        colInv (processed ++ [item]) p)
    ∧ (∀ it ∈ processed ++ [item], ∀ q ∈ it,
        keyMem q.1 (padMissing item (addItemKeys processed.length item acc)) = true) := by
  rw [addItemKeys_eq item hnd acc processed.length, padMissing_append]
  constructor
  · intro p' hp'
    rcases List.mem_append.mp hp' with hmem | hmem
    · -- an already-known column, updated then padded
      unfold padMissing at hmem
      rw [List.map_map] at hmem
      rcases List.mem_map.mp hmem with ⟨p, hp, rfl⟩
      have hci := hcol p hp
      obtain ⟨hlen, hval⟩ := hci
      show colInv (processed ++ [item])
        ((fun p => if keyMem p.1 item then p else (p.1, p.2 ++ [nanv])) (updWith item p))
      cases hlk : lookupVal item p.1 with
      | some v =>
        have hupd : updWith item p = (p.1, p.2 ++ [v]) := by unfold updWith; rw [hlk]
        have hkm : keyMem p.1 item = true := by
          rw [keyMem_iff_lookup, hlk]; rfl
        rw [hupd]
        simp only [hkm, if_true]
        constructor
        · simp [hlen]
        · intro i hi
          simp only [List.length_append, List.length_cons, List.length_nil] at hi
          rcases Nat.lt_or_ge i processed.length with hilt | hige
          · rw [getD_append_lt p.2 [v] [] i (by omega),
                getD_append_lt processed [item] [] i hilt]
            exact hval i hilt
          · have hieq : i = processed.length := by omega
            subst hieq
            rw [show processed.length = p.2.length from hlen.symm, getD_append_len,
                show p.2.length = processed.length from hlen, getD_append_len]
            simp [hlk]
      | none =>
        have hupd : updWith item p = p := by unfold updWith; rw [hlk]
        have hkm : keyMem p.1 item = false := by
          rw [keyMem_iff_lookup, hlk]; rfl
        rw [hupd]
        simp only [hkm, Bool.false_eq_true, if_false]
        constructor
        · simp [hlen]
        · intro i hi
          simp only [List.length_append, List.length_cons, List.length_nil] at hi
          rcases Nat.lt_or_ge i processed.length with hilt | hige
          · rw [getD_append_lt p.2 [nanv] [] i (by omega),
                getD_append_lt processed [item] [] i hilt]
            exact hval i hilt
          · have hieq : i = processed.length := by omega
            subst hieq
            rw [show processed.length = p.2.length from hlen.symm, getD_append_len,
                show p.2.length = processed.length from hlen, getD_append_len]
            simp [hlk]
    · -- a freshly created column for one of the current row's properties
      unfold padMissing at hmem
      unfold newColsOf at hmem
      rw [List.map_map] at hmem
      rcases List.mem_map.mp hmem with ⟨q, hqf, rfl⟩
      have hqi : q ∈ item := (List.mem_filter.mp hqf).1
      have hqa : keyMem q.1 acc = false := by
        have := (List.mem_filter.mp hqf).2
        cases h : keyMem q.1 acc with
        | false => rfl
        | true => rw [h] at this; simp at this
      have hkm : keyMem q.1 item = true := keyMem_of_mem hqi
      show colInv (processed ++ [item])
        ((fun p => if keyMem p.1 item then p else (p.1, p.2 ++ [nanv]))
          (q.1, List.replicate processed.length nanv ++ [q.2]))
      simp only [hkm, if_true]
      constructor
      · simp
      · intro i hi
        simp only [List.length_append, List.length_cons, List.length_nil] at hi
        rcases Nat.lt_or_ge i processed.length with hilt | hige
        · rw [getD_append_lt _ [q.2] [] i (by simp [hilt]),
              getD_replicate_lt nanv [] processed.length i hilt,
              getD_append_lt processed [item] [] i hilt]
          have hnomem : keyMem q.1 (processed.getD i []) = false := by
            cases h : keyMem q.1 (processed.getD i []) with
            | false => rfl
            | true =>
              rcases exists_of_keyMem h with ⟨q0, hq0, hq01⟩
              have := hcomp (processed.getD i []) (getD_mem processed [] i hilt) q0 hq0
              rw [hq01] at this
              rw [this] at hqa
              simp at hqa
          rw [lookupVal_eq_none hnomem]
          rfl
        · have hieq : i = processed.length := by omega
          subst hieq
          rw [getD_append_at (List.replicate processed.length nanv) [q.2] []
                processed.length (by simp),
              getD_append_at processed [item] [] processed.length rfl]
          simp [lookupVal_of_mem_nodup hnd hqi]
  · intro it hit q hq
    have hkeys : ∀ x : PyStr,
        keyMem x (padMissing item (acc.map (updWith item))
            ++ padMissing item (newColsOf processed.length acc item))
          = (keyMem x acc || keyMem x (newColsOf processed.length acc item)) := by
      intro x
      rw [keyMem_append, keyMem_padMissing, keyMem_padMissing,
          keyMem_map_fst (updWith_fst item)]
    rw [hkeys]
    rcases List.mem_append.mp hit with hpm | hlast
    · rw [hcomp it hpm q hq]
      rfl
    · have hitem : it = item := by simpa using hlast
      rw [hitem] at hq
      cases hqa : keyMem q.1 acc with
      | true => rfl
      | false =>
        have hqf : q ∈ List.filter (fun q' => !(keyMem q'.1 acc)) item :=
          List.mem_filter.mpr ⟨hq, by simp [hqa]⟩
        have hmem : (q.1, List.replicate processed.length nanv ++ [q.2])
            ∈ newColsOf processed.length acc item :=
          List.mem_map.mpr ⟨q, hqf, rfl⟩
        have := keyMem_of_mem hmem
        simp only [this, Bool.or_true]

theorem buildAux_inv :
    ∀ (items processed : List PropDict) (acc : PropsTable),
      (∀ item ∈ items, keysNodup item) →
      (∀ p ∈ acc, colInv processed p) →
      (∀ it ∈ processed, ∀ q ∈ it, keyMem q.1 acc = true) →
      ∀ p ∈ buildAux processed.length items acc, colInv (processed ++ items) p := by
  intro items
  induction items with
  | nil =>
    intro processed acc _ hcol _ p hp
    simpa using hcol p (by simpa [buildAux] using hp)
  | cons item rest ih =>
    intro processed acc hnd hcol hcomp p hp
    have hstep := step_inv processed item (hnd item (by simp)) acc hcol hcomp
    have hlen : (processed ++ [item]).length = processed.length + 1 := by simp
    rw [show buildAux processed.length (item :: rest) acc
        = buildAux (processed ++ [item]).length rest
            (padMissing item (addItemKeys processed.length item acc)) by
      rw [hlen]; rfl] at hp
    have hres := ih (processed ++ [item])
      (padMissing item (addItemKeys processed.length item acc))
      (fun it hit => hnd it (by simp [hit])) hstep.1 hstep.2 p hp
    simpa [List.append_assoc] using hres

theorem build_props_inv (items : List PropDict) (h : ∀ item ∈ items, keysNodup item) :
    ∀ p ∈ build_properties_dict items, colInv items p := by
  have := buildAux_inv items [] [] h (by simp) (by simp)
  simpa [build_properties_dict] using this

theorem keyMem_addItemKeys_mono (x : PyStr) :
    ∀ (item : PropDict) (acc : PropsTable) (index : Nat),
      keyMem x acc = true → keyMem x (addItemKeys index item acc) = true := by
  intro item
  induction item with
  | nil => intro acc index h; simpa [addItemKeys] using h
  | cons kv rest ih =>
    intro acc index h
    obtain ⟨k, v⟩ := kv
    cases hk : keyMem k acc with
    | true =>
      rw [show addItemKeys index ((k, v) :: rest) acc
          = addItemKeys index rest
              (acc.map (fun p => if p.1 == k then (p.1, p.2 ++ [v]) else p)) by
        simp [addItemKeys, hk]]
      apply ih
      rw [keyMem_map_fst (fun p => by cases hp : (p.1 == k) <;> simp [hp])]
      exact h
    | false =>
      rw [show addItemKeys index ((k, v) :: rest) acc
          = addItemKeys index rest (acc ++ [(k, List.replicate index nanv ++ [v])]) by
        simp [addItemKeys, hk]]
      apply ih
      rw [keyMem_append, h]
      rfl

theorem keyMem_addItemKeys_self :
    ∀ (item : PropDict) (acc : PropsTable) (index : Nat) (q : PyStr × List PyStr),
      q ∈ item → keyMem q.1 (addItemKeys index item acc) = true := by
  intro item
  induction item with
  | nil => intro _ _ q hq; simp at hq
  | cons kv rest ih =>
    intro acc index q hq
    obtain ⟨k, v⟩ := kv
    rcases List.mem_cons.mp hq with rfl | hqr
    · cases hk : keyMem k acc with
      | true =>
        rw [show addItemKeys index ((k, v) :: rest) acc
            = addItemKeys index rest
                (acc.map (fun p => if p.1 == k then (p.1, p.2 ++ [v]) else p)) by
          simp [addItemKeys, hk]]
        apply keyMem_addItemKeys_mono
        rw [keyMem_map_fst (fun p => by cases hp : (p.1 == k) <;> simp [hp])]
        exact hk
      | false =>
        rw [show addItemKeys index ((k, v) :: rest) acc
            = addItemKeys index rest (acc ++ [(k, List.replicate index nanv ++ [v])]) by
          simp [addItemKeys, hk]]
        apply keyMem_addItemKeys_mono
        rw [keyMem_append]
        simp [keyMem]
    · cases hk : keyMem k acc with
      | true =>
        rw [show addItemKeys index ((k, v) :: rest) acc
            = addItemKeys index rest
                (acc.map (fun p => if p.1 == k then (p.1, p.2 ++ [v]) else p)) by
          simp [addItemKeys, hk]]
        exact ih _ index q hqr
      | false =>
        rw [show addItemKeys index ((k, v) :: rest) acc
            = addItemKeys index rest (acc ++ [(k, List.replicate index nanv ++ [v])]) by
          simp [addItemKeys, hk]]
        exact ih _ index q hqr

theorem keyMem_buildAux_mono (x : PyStr) :
    ∀ (items : List PropDict) (index : Nat) (acc : PropsTable),
      keyMem x acc = true → keyMem x (buildAux index items acc) = true := by
  intro items
  induction items with
  | nil => intro index acc h; simpa [buildAux] using h
  | cons item rest ih =>
    intro index acc h
    show keyMem x (buildAux (index + 1) rest (padMissing item (addItemKeys index item acc))) = true
    apply ih
    rw [keyMem_padMissing]
    exact keyMem_addItemKeys_mono x item acc index h

theorem build_keys_complete :
    ∀ (items : List PropDict) (item : PropDict), item ∈ items →
      ∀ q ∈ item, keyMem q.1 (build_properties_dict items) = true := by
  have haux : ∀ (items : List PropDict) (index : Nat) (acc : PropsTable)
      (item : PropDict), item ∈ items →
      ∀ q ∈ item, keyMem q.1 (buildAux index items acc) = true := by
    intro items
    induction items with
    | nil => intro _ _ item h; simp at h
    | cons it rest ih =>
      intro index acc item hmem q hq
      rcases List.mem_cons.mp hmem with rfl | hrest
      · show keyMem q.1 (buildAux (index + 1) rest
            (padMissing item (addItemKeys index item acc))) = true
        apply keyMem_buildAux_mono
        rw [keyMem_padMissing]
        exact keyMem_addItemKeys_self item acc index q hq
      · exact ih (index + 1) _ item hrest q hq
  intro items item hmem q hq
  exact haux items 0 [] item hmem q hq

theorem keyMem_addItemKeys_sub (x : PyStr) :
    ∀ (item : PropDict) (acc : PropsTable) (index : Nat),
      keyMem x (addItemKeys index item acc) = true →
      keyMem x acc = true ∨ keyMem x item = true := by
  intro item
  induction item with
  | nil => intro acc index h; exact Or.inl (by simpa [addItemKeys] using h)
  | cons kv rest ih =>
    intro acc index h
    obtain ⟨k, v⟩ := kv
    cases hk : keyMem k acc with
    | true =>
      rw [show addItemKeys index ((k, v) :: rest) acc
          = addItemKeys index rest
              (acc.map (fun p => if p.1 == k then (p.1, p.2 ++ [v]) else p)) by
        simp [addItemKeys, hk]] at h
      rcases ih _ index h with hacc | hrest
      · rw [keyMem_map_fst (fun p => by cases hp : (p.1 == k) <;> simp [hp])] at hacc
        exact Or.inl hacc
      · refine Or.inr ?_
        show ((k == x) || keyMem x rest) = true
        rw [hrest]
        simp
    | false =>
      rw [show addItemKeys index ((k, v) :: rest) acc
          = addItemKeys index rest (acc ++ [(k, List.replicate index nanv ++ [v])]) by
        simp [addItemKeys, hk]] at h
      rcases ih _ index h with hacc | hrest
      · rw [keyMem_append] at hacc
        rcases Bool.or_eq_true_iff.mp hacc with h1 | h2
        · exact Or.inl h1
        · refine Or.inr ?_
          show ((k == x) || keyMem x rest) = true
          have : (k == x) = true := by simpa [keyMem] using h2
          rw [this]
          rfl
      · refine Or.inr ?_
        show ((k == x) || keyMem x rest) = true
        rw [hrest]
        simp

theorem build_keys_sub :
    ∀ (items : List PropDict) (x : PyStr),
      keyMem x (build_properties_dict items) = true →
      ∃ item ∈ items, keyMem x item = true := by
  have haux : ∀ (items : List PropDict) (index : Nat) (acc : PropsTable) (x : PyStr),
      keyMem x (buildAux index items acc) = true →
      keyMem x acc = true ∨ ∃ item ∈ items, keyMem x item = true := by
    intro items
    induction items with
    | nil => intro index acc x h; exact Or.inl (by simpa [buildAux] using h)
    | cons it rest ih =>
      intro index acc x h
      replace h : keyMem x (buildAux (index + 1) rest
          (padMissing it (addItemKeys index it acc))) = true := h
      rcases ih (index + 1) _ x h with hacc | ⟨item, hmem, hkm⟩
      · rw [keyMem_padMissing] at hacc
        rcases keyMem_addItemKeys_sub x it acc index hacc with h1 | h2
        · exact Or.inl h1
        · exact Or.inr ⟨it, by simp, h2⟩
      · exact Or.inr ⟨item, by simp [hmem], hkm⟩
  intro items x h
  rcases haux items 0 [] x h with hacc | hres
  · simp [keyMem] at hacc
  · exact hres

theorem topm_ok (t : Tag) (q : PyStr) (h : t.name = q ∨ (t.parent).isSome = true) :
    tag_or_parent_matches t q = Except.ok (matches_tag_query t q) := by
  unfold tag_or_parent_matches matches_tag_query
  cases hn : (t.name == q) with
  | true => simp [hn]
  | false =>
    have hne : ¬t.name = q := by simpa using hn
    rcases h with h1 | h2
    · exact absurd h1 hne
    · cases hp : t.parent with
      | none => rw [hp] at h2; simp at h2
      | some p => simp [hn, hp]

/-- C3 (amended): for a `path_element` containing no regular-expression
metacharacter, `filter_by_tag_path` returns exactly the rows whose full tag
path contains `path_element` as a case-sensitive literal substring; for
general patterns the filter applies regex matching (`str.contains` defaults to
`regex=True`), not literal containment. -/
theorem C3_filter_by_tag_path_literal (df : ACDf) (path_element : PyStr)
    (h : ∀ ch ∈ path_element, regex_metachars.contains ch = false) :
    (filter_by_tag_path df path_element).rows
      = df.rows.filter (fun r => lit_search path_element r.tag_path) := by
  have hnd : ∀ ch ∈ path_element, ch ≠ '.' := by
    intro ch hch heq
    have hc := h ch hch
    rw [heq] at hc
    exact absurd hc (by decide)
  show maskFilter (df.rows.map (fun r => re_search path_element r.tag_path)) df.rows = _
  rw [show (df.rows.map (fun r => re_search path_element r.tag_path))
      = df.rows.map (fun r => lit_search path_element r.tag_path) from
    map_congr_mem (fun r _ => re_search_no_dot hnd r.tag_path)]
  exact maskFilter_map_self _ _

/-- C3 witness: a metacharacter-free pattern filters by literal containment. -/
theorem C3_filter_witness :
    (∀ ch ∈ pyStr "b", regex_metachars.contains ch = false) ∧
    (filter_by_tag_path c3df (pyStr "b")).rows
      = c3df.rows.filter (fun r => lit_search (pyStr "b") r.tag_path) :=
  ⟨by decide, C3_filter_by_tag_path_literal c3df (pyStr "b") (by decide)⟩

/-- C3 counterexample: the pattern `.` selects the row with tag path `abc`
although `.` is not a literal substring of `abc` — `filter_by_tag_path` is
regex matching, not literal substring containment, for general patterns. -/
theorem C3_counterexample :
    (filter_by_tag_path c3df (pyStr ".")).rows = [c3row]
    ∧ lit_search (pyStr ".") (pyStr "abc") = false := by
  constructor
  · rfl
  · decide

/-- C4 (amended): constructing a collection whose `annotations/` subdirectory
does not exist does not raise; it yields zero annotations and a zero-row table
whose columns are exactly the raw fixed column list `df_columns` — which still
contains the `'properties'` staging column and no `'prop:'` columns.  (A
non-empty collection's table instead drops `'properties'` when the property
columns are split out, so the two fixed column sets differ in that column.) -/
theorem C4_missing_annotations_dir (fs : ProjectFs) (h1 : fs.headerExists = true)
    (h2 : fs.annotationsDirExists = false) :
    ACinit fs = Except.ok
      { uuid := fs.ac_uuid, directory := acDirectory fs, name := fs.header_name,
        annotations := [], df := { rows := [], hasPropsCol := true, propCols := [] } }
    ∧ dfColumnsOf { rows := [], hasPropsCol := true, propCols := [] } = df_columns := by
  constructor
  · simp [ACinit, h1, h2]
  · simp [dfColumnsOf]

/-- C4 witness: the empty-directory constructor outcome at a concrete state. -/
theorem C4_missing_dir_witness :
    c4fsE.headerExists = true ∧ c4fsE.annotationsDirExists = false ∧
    (ACinit c4fsE = Except.ok
      { uuid := c4fsE.ac_uuid, directory := acDirectory c4fsE,
        name := c4fsE.header_name, annotations := [],
        df := { rows := [], hasPropsCol := true, propCols := [] } }
    ∧ dfColumnsOf { rows := [], hasPropsCol := true, propCols := [] } = df_columns) :=
  ⟨rfl, rfl, C4_missing_annotations_dir c4fsE rfl rfl⟩

/-- C4 counterexample: the missing-directory table's column set is NOT the
column set of a non-empty collection's table — the former contains the
`'properties'` column, the latter does not. -/
theorem C4_counterexample :
    (ACinit c4fsE).map (fun ac => (dfColumnsOf ac.df).contains (pyStr "properties"))
        = Except.ok true
    ∧ (ACinit c4fsN).map (fun ac => (dfColumnsOf ac.df).contains (pyStr "properties"))
        = Except.ok false :=
  ⟨rfl, rfl⟩

/-- C9: a missing `header.json` makes construction fail immediately with a
`FileNotFoundError` whose message names the collection's expected path and
carries the remediation hint to verify the CATMA project clone. -/
theorem C9_missing_header (fs : ProjectFs) (h : fs.headerExists = false) :
    ACinit fs = Except.error (headerNotFoundMsg fs)
    ∧ lit_search (acDirectory fs) (headerNotFoundMsg fs) = true
    ∧ lit_search (pyStr "Make sure the CATMA project clone worked properly.")
        (headerNotFoundMsg fs) = true := by
  refine ⟨by simp [ACinit, h], ?_, ?_⟩
  · unfold headerNotFoundMsg
    exact lit_search_append (acDirectory fs) _ _
  · have hsplit : headerNotFoundMsg fs
        = ((pyStr "The annotation collection at this path could not be found: "
            ++ acDirectory fs ++ pyStr "\n                    --> ")
          ++ pyStr "Make sure the CATMA project clone worked properly.") ++ [] := by
      unfold headerNotFoundMsg
      rw [List.append_nil]
      rw [show (pyStr "\n                    --> Make sure the CATMA project clone worked properly.")
          = pyStr "\n                    --> "
            ++ pyStr "Make sure the CATMA project clone worked properly." from by decide]
      simp [List.append_assoc]
    rw [hsplit]
    exact lit_search_append _ _ []

/-- C9 witness: the missing-header failure at a concrete project state. -/
theorem C9_missing_header_witness :
    c9fs.headerExists = false ∧
    (ACinit c9fs = Except.error (headerNotFoundMsg c9fs)
    ∧ lit_search (acDirectory c9fs) (headerNotFoundMsg c9fs) = true
    ∧ lit_search (pyStr "Make sure the CATMA project clone worked properly.")
        (headerNotFoundMsg c9fs) = true) :=
  ⟨rfl, C9_missing_header c9fs rfl⟩

/-- C10 (amended): `get_annotation_by_tag` returns exactly the annotations
whose tag's own name or tag's parent's name equals the query; the parent is
read only for annotations whose tag name does not match (`or` short-circuits),
so evaluation fails exactly when some annotation's tag has no parent AND a
name different from the query — not merely when some tag has no parent. -/
theorem C10_get_annotation_by_tag (anns : List Annotation) (tag_name : PyStr) :
    ((∀ an ∈ anns, an.tag.name = tag_name ∨ (an.tag.parent).isSome = true) →
      get_annotation_by_tag anns tag_name
        = Except.ok (anns.filter (fun an => matches_tag_query an.tag tag_name)))
    ∧ ((∃ an ∈ anns, ¬an.tag.name = tag_name ∧ an.tag.parent = none) →
      get_annotation_by_tag anns tag_name = Except.error ()) := by
  induction anns with
  | nil =>
    refine ⟨fun _ => rfl, fun h => ?_⟩
    simp at h
  | cons an rest ih =>
    constructor
    · intro h
      have hhd := h an (by simp)
      have hihs := ih.1 (fun a ha => h a (by simp [ha]))
      show (match tag_or_parent_matches an.tag tag_name with
        | Except.error e => Except.error e
        | Except.ok b =>
          match get_annotation_by_tag rest tag_name with
          | Except.error e => Except.error e
          | Except.ok l => Except.ok (if b then an :: l else l)) = _
      rw [topm_ok an.tag tag_name hhd, hihs]
      rw [List.filter_cons]
    · intro hex
      rcases hex with ⟨a, ha, hname, hpar⟩
      rcases List.mem_cons.mp ha with rfl | har
      · have htop : tag_or_parent_matches a.tag tag_name = Except.error () := by
          unfold tag_or_parent_matches
          have hb : (a.tag.name == tag_name) = false := by simpa using hname
          simp [hb, hpar]
        show (match tag_or_parent_matches a.tag tag_name with
          | Except.error e => Except.error e
          | Except.ok b =>
            match get_annotation_by_tag rest tag_name with
            | Except.error e => Except.error e
            | Except.ok l => Except.ok (if b then a :: l else l)) = Except.error ()
        rw [htop]
      · have hrest := ih.2 ⟨a, har, hname, hpar⟩
        show (match tag_or_parent_matches an.tag tag_name with
          | Except.error e => Except.error e
          | Except.ok b =>
            match get_annotation_by_tag rest tag_name with
            | Except.error e => Except.error e
            | Except.ok l => Except.ok (if b then an :: l else l)) = Except.error ()
        cases htop : tag_or_parent_matches an.tag tag_name with
        | error e => rfl
        | ok b => rw [hrest]

/-- C10 witness: both directions of the amended claim at concrete inputs. -/
theorem C10_get_annotation_witness :
    ((∀ an ∈ [c10a, c10b], an.tag.name = pyStr "X" ∨ (an.tag.parent).isSome = true)
      ∧ get_annotation_by_tag [c10a, c10b] (pyStr "X")
          = Except.ok ([c10a, c10b].filter (fun an => matches_tag_query an.tag (pyStr "X"))))
    ∧ ((∃ an ∈ [c10a], ¬an.tag.name = pyStr "Z" ∧ an.tag.parent = none)
      ∧ get_annotation_by_tag [c10a] (pyStr "Z") = Except.error ()) :=
  ⟨⟨by decide, (C10_get_annotation_by_tag [c10a, c10b] (pyStr "X")).1 (by decide)⟩,
   ⟨by decide, (C10_get_annotation_by_tag [c10a] (pyStr "Z")).2 (by decide)⟩⟩

/-- C10 counterexample: a collection containing an annotation whose tag has no
parent does NOT necessarily fail — when that tag's own name equals the query,
`or` short-circuits and the annotation is returned. -/
theorem C10_counterexample :
    c10a.tag.parent = none
    ∧ get_annotation_by_tag [c10a] (pyStr "X") = Except.ok [c10a] :=
  ⟨rfl, rfl⟩

theorem read_foldl (anns : List Annotation) :
    ∀ (rows : List ParsedRow) (acc : ReadResult),
      rows.foldl (read_step anns) acc
        = { events := acc.events ++ rows.filterMap (evtOf anns),
            updated := acc.updated + (rows.filter (row_ok anns)).length,
            missed := acc.missed + (rows.filter (fun r => !(row_ok anns r))).length } := by
  intro rows
  induction rows with
  | nil => intro acc; simp
  | cons row rest ih =>
    intro acc
    show rest.foldl (read_step anns) (read_step anns acc row) = _
    rw [ih (read_step anns acc row)]
    unfold read_step
    cases hv : evtOf anns row with
    | some e =>
      have hok : row_ok anns row = true := by simp [row_ok, hv]
      simp [List.filterMap_cons, hv, List.filter_cons, hok, List.append_assoc]
      omega
    | none =>
      have hok : row_ok anns row = false := by simp [row_ok, hv]
      simp [List.filterMap_cons, hv, List.filter_cons, hok]
      omega

theorem counterStep_inv {processed : List PyStr} {acc : List (PyStr × Nat)} (t : PyStr)
    (h1 : ∀ p ∈ acc, p.2 = processed.count p.1)
    (h2 : ∀ x ∈ processed, keyMem x acc = true) :
    (∀ p ∈ counterStep acc t, p.2 = (processed ++ [t]).count p.1)
    ∧ (∀ x ∈ processed ++ [t], keyMem x (counterStep acc t) = true) := by
  unfold counterStep
  cases hk : keyMem t acc with
  | true =>
    simp only [if_true]
    constructor
    · intro p hp
      rcases List.mem_map.mp hp with ⟨q, hq, rfl⟩
      cases hqt : (q.1 == t) with
      | true =>
        have hqt' : q.1 = t := eq_of_beq hqt
        simp only [hqt, if_true]
        rw [List.count_append, ← h1 q hq]
        have : List.count q.1 [t] = 1 := by
          simp [List.count_cons, hqt', List.count_nil]
        rw [this]
      | false =>
        have htq : (t == q.1) = false := by
          cases htq : (t == q.1) with
          | false => rfl
          | true => rw [eq_of_beq htq] at hqt; simp at hqt
        simp only [hqt, Bool.false_eq_true, if_false]
        rw [List.count_append, ← h1 q hq]
        have : List.count q.1 [t] = 0 := by
          simp [List.count_cons, htq, List.count_nil]
        rw [this]
        omega
    · intro x hx
      rcases List.mem_append.mp hx with hxp | hxt
      · rw [keyMem_map_fst (fun p => by cases hp : (p.1 == t) <;> simp [hp])]
        exact h2 x hxp
      · have hxt' : x = t := by simpa using hxt
        rw [hxt']
        rw [keyMem_map_fst (fun p => by cases hp : (p.1 == t) <;> simp [hp])]
        exact hk
  | false =>
    simp only [Bool.false_eq_true, if_false]
    constructor
    · intro p hp
      rcases List.mem_append.mp hp with hpa | hpn
      · have hpt : (t == p.1) = false := by
          cases hpt : (t == p.1) with
          | false => rfl
          | true =>
            have : keyMem t acc = true := by
              simp only [keyMem, List.any_eq_true]
              exact ⟨p, hpa, by rw [← eq_of_beq hpt]; simp⟩
            rw [this] at hk
            simp at hk
        rw [List.count_append, ← h1 p hpa]
        have : List.count p.1 [t] = 0 := by
          simp [List.count_cons, hpt, List.count_nil]
        rw [this]
        omega
      · have hpn' : p = (t, 1) := by simpa using hpn
        subst hpn'
        have htnp : t ∉ processed := by
          intro hmem
          have := h2 t hmem
          rw [this] at hk
          simp at hk
        show 1 = (processed ++ [t]).count t
        rw [List.count_append, List.count_eq_zero.mpr htnp]
        simp [List.count_cons]
    · intro x hx
      rcases List.mem_append.mp hx with hxp | hxt
      · rw [keyMem_append, h2 x hxp]
        rfl
      · have hxt' : x = t := by simpa using hxt
        rw [hxt', keyMem_append]
        have : keyMem t [(t, 1)] = true := by simp [keyMem]
        rw [this]
        simp

theorem counter_foldl (l : List PyStr) :
    ∀ (processed : List PyStr) (acc : List (PyStr × Nat)),
      (∀ p ∈ acc, p.2 = processed.count p.1) →
      (∀ x ∈ processed, keyMem x acc = true) →
      ∀ p ∈ l.foldl counterStep acc, p.2 = (processed ++ l).count p.1 := by
  induction l with
  | nil => intro processed acc h1 _ p hp; simpa using h1 p hp
  | cons t ts ih =>
    intro processed acc h1 h2 p hp
    have hstep := counterStep_inv t h1 h2
    have hres := ih (processed ++ [t]) (counterStep acc t) hstep.1 hstep.2 p hp
    simpa [List.append_assoc] using hres

theorem counterList_count (l : List PyStr) :
    ∀ p ∈ counterList l, p.2 = l.count p.1 := by
  intro p hp
  have := counter_foldl l [] [] (by simp) (by simp) p hp
  simpa using this

theorem mem_insDesc (x y : PyStr × Nat) :
    ∀ l, y ∈ insDesc x l → y = x ∨ y ∈ l := by
  intro l
  induction l with
  | nil => intro h; simpa [insDesc] using h
  | cons z zs ih =>
    intro h
    unfold insDesc at h
    by_cases hc : x.2 < z.2
    · rw [if_pos hc] at h
      rcases List.mem_cons.mp h with rfl | h2
      · exact Or.inr (by simp)
      · rcases ih h2 with rfl | h3
        · exact Or.inl rfl
        · exact Or.inr (by simp [h3])
    · rw [if_neg hc] at h
      rcases List.mem_cons.mp h with rfl | h2
      · exact Or.inl rfl
      · exact Or.inr h2

theorem pairwise_insDesc (x : PyStr × Nat) :
    ∀ l, List.Pairwise (fun p q : PyStr × Nat => q.2 ≤ p.2) l →
      List.Pairwise (fun p q : PyStr × Nat => q.2 ≤ p.2) (insDesc x l) := by
  intro l
  induction l with
  | nil => intro _; simp [insDesc]
  | cons z zs ih =>
    intro h
    rw [List.pairwise_cons] at h
    obtain ⟨hz, hzs⟩ := h
    unfold insDesc
    by_cases hc : x.2 < z.2
    · rw [if_pos hc, List.pairwise_cons]
      refine ⟨?_, ih hzs⟩
      intro y hy
      rcases mem_insDesc x y zs hy with rfl | hyz
      · exact Nat.le_of_lt hc
      · exact hz y hyz
    · rw [if_neg hc, List.pairwise_cons]
      have hzx : z.2 ≤ x.2 := Nat.le_of_not_lt hc
      refine ⟨?_, List.pairwise_cons.mpr ⟨hz, hzs⟩⟩
      intro y hy
      rcases List.mem_cons.mp hy with rfl | hyz
      · exact hzx
      · exact Nat.le_trans (hz y hyz) hzx

theorem pairwise_sortDesc :
    ∀ l, List.Pairwise (fun p q : PyStr × Nat => q.2 ≤ p.2) (sortDesc l) := by
  intro l
  induction l with
  | nil => simp [sortDesc]
  | cons x xs ih => exact pairwise_insDesc x (sortDesc xs) ih

theorem mem_sortDesc {y : PyStr × Nat} : ∀ l, y ∈ sortDesc l → y ∈ l := by
  intro l
  induction l with
  | nil => intro h; simp [sortDesc] at h
  | cons x xs ih =>
    intro h
    rcases mem_insDesc x y (sortDesc xs) h with rfl | h2
    · simp
    · exact List.mem_cons_of_mem x (ih h2)

/-- C6 (amended): `most_common_token` tokenizes by stripping punctuation,
splitting on single spaces, dropping empty tokens and stopwords, then ranks by
descending frequency (stable, so ties keep first-encountered order) truncated
to the requested count; each reported count is the token's true frequency.
For `["a b b", "b c"]` with `ranking=2` the result is `{"b": 3, "a": 1}` —
"b" occurs three times (not twice as the spec's example states), and the tie
between "a" and "c" is broken in favour of the first-encountered "a". -/
theorem C6_most_common_token (texts stopwords : List PyStr) (ranking : Nat) :
    List.Pairwise (fun p q : PyStr × Nat => q.2 ≤ p.2)
        (most_common_token texts stopwords ranking)
    ∧ (most_common_token texts stopwords ranking).length ≤ ranking
    ∧ (∀ p ∈ most_common_token texts stopwords ranking,
        p.2 = (processed_tokens texts stopwords).count p.1)
    ∧ most_common_token [pyStr "a b b", pyStr "b c"] [] 2
        = [(pyStr "b", 3), (pyStr "a", 1)] := by
  refine ⟨?_, ?_, ?_, by decide⟩
  · exact List.Pairwise.sublist (List.take_sublist _ _) (pairwise_sortDesc _)
  · exact List.length_take_le _ _
  · intro p hp
    have h1 : p ∈ sortDesc (counterList (processed_tokens texts stopwords)) :=
      List.take_subset _ _ hp
    exact counterList_count _ p (mem_sortDesc _ h1)

/-- C6 witness: the ranking facts evaluated at the concrete example. -/
theorem C6_most_common_token_witness :
    ((pyStr "b", 3) ∈ most_common_token [pyStr "a b b", pyStr "b c"] [] 2)
    ∧ 3 = (processed_tokens [pyStr "a b b", pyStr "b c"] []).count (pyStr "b") :=
  ⟨by decide,
   (C6_most_common_token [pyStr "a b b", pyStr "b c"] [] 2).2.2.1
     (pyStr "b", 3) (by decide)⟩

/-- C6 counterexample: the spec's concrete example miscounts — for texts
`["a b b", "b c"]` the token "b" occurs three times, so the result is not
`{"b": 2, "a": 1}`. -/
theorem C6_counterexample :
    most_common_token [pyStr "a b b", pyStr "b c"] [] 2
      ≠ [(pyStr "b", 2), (pyStr "a", 1)] := by
  decide

theorem fixed_cols_no_prop_filterMap :
    (df_columns.erase (pyStr "properties")).filterMap (fun item =>
      if lit_search (pyStr "prop:") item then some (pyReplace (pyStr "prop:") [] item)
      else none) = [] := by
  decide

theorem propcols_filterMap (df : ACDf) (hprops : df.hasPropsCol = false)
    (hnames : ∀ q ∈ df.propCols, lit_search (pyStr "prop:") q.1 = false) :
    (dfColumnsOf df).filterMap (fun item =>
        if lit_search (pyStr "prop:") item then some (pyReplace (pyStr "prop:") [] item)
        else none)
      = df.propCols.map Prod.fst := by
  unfold dfColumnsOf
  rw [hprops]
  simp only [Bool.false_eq_true, if_false]
  rw [List.filterMap_append, fixed_cols_no_prop_filterMap, List.nil_append,
      List.filterMap_map]
  apply filterMap_eq_map_of_some
  intro q hq
  show (if lit_search (pyStr "prop:") (pyStr "prop:" ++ q.1) = true then
      some (pyReplace (pyStr "prop:") [] (pyStr "prop:" ++ q.1)) else none) = some q.1
  rw [lit_search_prefixed]
  simp only [if_true]
  rw [pyReplace_strip (pyStr "prop:") q.1 (by decide) (hnames q hq)]

theorem duplicate_rows_find (df : ACDf) (prop : PyStr)
    (hp : lit_search (pyStr "prop:") prop = false) :
    duplicate_rows df prop
      = (match df.propCols.find? (fun q => q.1 == prop) with
        | none => Except.error ()
        | some q =>
          Except.ok ((df.rows.zip q.2).flatMap (fun p => p.2.map (fun v => (p.1, v))))) := by
  unfold duplicate_rows
  rw [hp]
  simp only [Bool.false_eq_true, if_false]
  have hcancel : ∀ q : PyStr × List (List PyStr),
      ((pyStr "prop:" ++ q.1) == (pyStr "prop:" ++ prop)) = (q.1 == prop) := by
    intro q
    cases h : (q.1 == prop) with
    | true => rw [eq_of_beq h]; simp
    | false =>
      cases h2 : ((pyStr "prop:" ++ q.1) == (pyStr "prop:" ++ prop)) with
      | false => rfl
      | true =>
        have h3 := List.append_cancel_left (eq_of_beq h2)
        rw [h3] at h
        simp at h
  rw [find?_congr_mem (fun q _ => hcancel q)]

/-- C7 (amended): for property names free of the literal `prop:` (every real
property name), `duplicate_by_prop` on an unobserved property raises the
invalid-property error whose message lists exactly the observed property
names, and on an observed property returns the duplicated view without
raising.  (For pathological names containing `prop:`, the listed names are the
column names with every `prop:` occurrence removed, which can differ from the
names actually present.) -/
theorem C7_duplicate_by_prop (anns : List Annotation) (title acName prop : PyStr)
    (hnames : ∀ q ∈ (ac_to_df anns title acName).propCols,
        lit_search (pyStr "prop:") q.1 = false)
    (hp : lit_search (pyStr "prop:") prop = false) :
    (keyMem prop (collection_of anns title acName).df.propCols = false →
      duplicate_by_prop (collection_of anns title acName) prop
        = Except.error ((collection_of anns title acName).df.propCols.map Prod.fst))
    ∧ (keyMem prop (collection_of anns title acName).df.propCols = true →
      (duplicate_by_prop (collection_of anns title acName) prop).isOk = true) := by
  have hdf : (collection_of anns title acName).df = ac_to_df anns title acName := rfl
  constructor
  · intro hkm
    rw [hdf] at hkm
    unfold duplicate_by_prop
    rw [hdf, duplicate_rows_find _ prop hp]
    have hnone : (ac_to_df anns title acName).propCols.find? (fun q => q.1 == prop)
        = none := by
      rw [List.find?_eq_none]
      intro q hq hbe
      have : keyMem prop (ac_to_df anns title acName).propCols = true := by
        simp only [keyMem, List.any_eq_true]
        exact ⟨q, hq, hbe⟩
      rw [this] at hkm
      exact absurd hkm (by simp)
    rw [hnone]
    exact congrArg Except.error (propcols_filterMap _ rfl hnames)
  · intro hkm
    rw [hdf] at hkm
    unfold duplicate_by_prop
    rw [hdf, duplicate_rows_find _ prop hp]
    cases hfind : (ac_to_df anns title acName).propCols.find? (fun q => q.1 == prop) with
    | none =>
      rcases exists_of_keyMem hkm with ⟨q, hq, hq1⟩
      have := List.find?_eq_none.mp hfind q hq
      rw [hq1] at this
      simp at this
    | some q => rfl

theorem full_export_record_keys (acName : PyStr) (an : Annotation) (q : PyStr × List PyStr) :
    (full_export_record acName an q).map Prod.fst = swapped_csv_columns := rfl

theorem missing_export_record_keys (acName : PyStr) (an : Annotation) (q : PyStr × List PyStr) :
    (missing_export_record acName an q).map Prod.fst = claimed_csv_columns := rfl

theorem full_record_values (acName : PyStr) (an : Annotation) (q : PyStr × List PyStr) :
    recField (full_export_record acName an q) (pyStr "values") = joinChar ',' q.2 := rfl

theorem full_record_id (acName : PyStr) (an : Annotation) (q : PyStr × List PyStr) :
    recField (full_export_record acName an q) (pyStr "id") = an.uuid := rfl

theorem full_record_tag (acName : PyStr) (an : Annotation) (q : PyStr × List PyStr) :
    recField (full_export_record acName an q) (pyStr "tag") = an.tag.name := rfl

theorem full_record_prop (acName : PyStr) (an : Annotation) (q : PyStr × List PyStr) :
    recField (full_export_record acName an q) (pyStr "property") = q.1 := rfl

theorem missing_record_values (acName : PyStr) (an : Annotation) (q : PyStr × List PyStr) :
    recField (missing_export_record acName an q) (pyStr "values") = [] := rfl

theorem record_columns_const (K : List PyStr) :
    ∀ (recs : List CsvRec), (∀ r ∈ recs, r.map Prod.fst = K) → recs ≠ [] →
      record_columns recs = K := by
  have hstay : ∀ (rest : List CsvRec), (∀ r ∈ rest, r.map Prod.fst = K) →
      rest.foldl (fun acc r =>
        acc ++ ((r.map Prod.fst).filter (fun k => !(acc.contains k)))) K = K := by
    intro rest
    induction rest with
    | nil => intro _; rfl
    | cons r rs ih =>
      intro h
      show rs.foldl _ (K ++ ((r.map Prod.fst).filter (fun k => !(K.contains k)))) = K
      rw [h r (by simp)]
      have hfilter : K.filter (fun k => !(K.contains k)) = [] := by
        rw [List.filter_eq_nil_iff]
        intro a ha
        simpa using ha
      rw [hfilter, List.append_nil]
      exact ih (fun x hx => h x (by simp [hx]))
  intro recs hK hne
  cases recs with
  | nil => exact absurd rfl hne
  | cons r rs =>
    show rs.foldl _ ([] ++ ((r.map Prod.fst).filter
        (fun k => !(([] : List PyStr).contains k)))) = K
    rw [hK r (by simp), List.nil_append]
    have hall : K.filter (fun k => !(([] : List PyStr).contains k)) = K := by
      rw [show (fun k : PyStr => !(([] : List PyStr).contains k)) = (fun _ => true) from
        by funext k; rfl]
      exact List.filter_true K
    rw [hall]
    exact hstay rs (fun x hx => hK x (by simp [hx]))

theorem annotation_output_mem (anns : List Annotation) (acName : PyStr)
    (props : List PyStr) (only_missing : Bool) :
    ∀ rec ∈ annotation_output anns acName props only_missing,
      rec.map Prod.fst
          = (if only_missing then claimed_csv_columns else swapped_csv_columns)
      ∧ (only_missing = true → recField rec (pyStr "values") = [])
      ∧ (only_missing = false → ∃ vals : List PyStr,
          recField rec (pyStr "values") = joinChar ',' vals) := by
  intro rec hrec
  unfold annotation_output at hrec
  rcases List.mem_flatMap.mp hrec with ⟨an, _, hrec2⟩
  rcases List.mem_filterMap.mp hrec2 with ⟨q, _, hqe⟩
  cases hcont : props.contains q.1 with
  | false => rw [hcont] at hqe; simp at hqe
  | true =>
    rw [hcont] at hqe
    simp only [if_true] at hqe
    cases only_missing with
    | true =>
      simp only [if_true] at hqe
      by_cases hlen : q.2.length < 1
      · rw [if_pos hlen] at hqe
        have hr : rec = missing_export_record acName an q := by
          injection hqe with h
          exact h.symm
        subst hr
        exact ⟨missing_export_record_keys acName an q, fun _ => rfl, fun h => by simp at h⟩
      · rw [if_neg hlen] at hqe
        simp at hqe
    | false =>
      simp only [Bool.false_eq_true, if_false] at hqe
      have hr : rec = full_export_record acName an q := by
        injection hqe with h
        exact h.symm
      subst hr
      refine ⟨full_export_record_keys acName an q, fun h => by simp at h,
        fun _ => ⟨q.2, full_record_values acName an q⟩⟩

/-- C5 (amended): every emitted row is semicolon-separated with the `values`
field a comma-joined list or empty, but the column order differs between the
two branches: `id;annotation_collection;tag;text;property;values` when
`only_missing_prop_values=True`, and `id;annotation_collection;text;tag;
property;values` (text before tag) when `only_missing_prop_values=False`; the
CSV header is the records' common key order. -/
theorem C5_write_annotation_csv_shape (ac : AnnotationCollection)
    (tags : Option (List PyStr)) (property : Option PyStr) (only_missing : Bool) :
    (write_annotation_csv ac tags property only_missing).sep = ';'
    ∧ (∀ rec ∈ write_records ac tags property only_missing,
        rec.map Prod.fst
          = (if only_missing then claimed_csv_columns else swapped_csv_columns)
        ∧ (only_missing = true → recField rec (pyStr "values") = [])
        ∧ (only_missing = false → ∃ vals : List PyStr,
            recField rec (pyStr "values") = joinChar ',' vals))
    ∧ (write_records ac tags property only_missing = []
      ∨ (write_annotation_csv ac tags property only_missing).header
          = (if only_missing then claimed_csv_columns else swapped_csv_columns)) := by
  refine ⟨rfl, ?_, ?_⟩
  · intro rec hrec
    exact annotation_output_mem _ ac.name _ only_missing rec hrec
  · cases hrecs : write_records ac tags property only_missing with
    | nil => exact Or.inl rfl
    | cons r rs =>
      refine Or.inr ?_
      show record_columns (write_records ac tags property only_missing) = _
      rw [hrecs]
      apply record_columns_const _ (r :: rs) ?_ (by simp)
      intro rec hrec
      exact (annotation_output_mem _ ac.name _ only_missing rec (hrecs ▸ hrec)).1

theorem flatMap_congr_mem {α β : Type} {f g : α → List β} {l : List α}
    (h : ∀ a ∈ l, f a = g a) : l.flatMap f = l.flatMap g := by
  induction l with
  | nil => rfl
  | cons a t ih =>
    rw [List.flatMap_cons, List.flatMap_cons, h a (by simp),
        ih (fun x hx => h x (by simp [hx]))]

theorem filterMap_flatMap_comm {α β γ : Type} (f : β → Option γ) (g : α → List β)
    (l : List α) :
    (l.flatMap g).filterMap f = l.flatMap (fun a => (g a).filterMap f) := by
  induction l with
  | nil => rfl
  | cons a t ih =>
    rw [List.flatMap_cons, List.flatMap_cons, List.filterMap_append, ih]

theorem contains_of_mem {x : PyStr} {l : List PyStr} (h : x ∈ l) :
    l.contains x = true := List.elem_eq_true_of_mem h

theorem an_dict_find_self (anns : List Annotation)
    (h : (anns.map (fun a => a.uuid)).Nodup) {an : Annotation} (hm : an ∈ anns) :
    an_dict_find anns an.uuid = some an := by
  unfold an_dict_find
  have hrev : (anns.reverse.map (fun a => a.uuid)).Nodup := by
    rw [List.map_reverse]
    exact List.nodup_reverse.mpr h
  exact find?_map_nodup (fun a => a.uuid) hrev (List.mem_reverse.mpr hm)

theorem all_eq_false_of_mem {α : Type} {p : α → Bool} {l : List α} {a : α}
    (ha : a ∈ l) (hpa : p a = false) : l.all p = false := by
  cases h : l.all p with
  | false => rfl
  | true =>
    have htrue := List.all_eq_true.mp h a ha
    rw [hpa] at htrue
    exact absurd htrue (by simp)

theorem mayBeNonString_of_na {s : PyStr} (h : pandas_default_na.contains s = true) :
    mayBeNonString s = true := by
  unfold mayBeNonString
  rw [h]
  simp

theorem parse_csv_column_strings {fields : List PyStr}
    (h : ∀ s ∈ fields, mayBeNonString s = false) :
    parse_csv_column fields = fields.map some := by
  unfold parse_csv_column
  cases fields with
  | nil => rfl
  | cons f fs =>
    have hall : ((f :: fs).all (fun s => mayBeNonString s)) = false :=
      all_eq_false_of_mem (List.mem_cons_self f fs) (h f (by simp))
    rw [hall]
    simp only [Bool.false_eq_true, if_false]
    apply map_congr_mem
    intro s hs
    have hna : pandas_default_na.contains s = false := by
      cases hna : pandas_default_na.contains s with
      | false => rfl
      | true =>
        have hmay := mayBeNonString_of_na hna
        rw [h s hs] at hmay
        exact absurd hmay (by simp)
    rw [hna]
    simp

theorem zipCols_map {α : Type} (f1 f2 f3 f4 : α → Option PyStr) :
    ∀ l : List α,
      zipCols (l.map f1) (l.map f2) (l.map f3) (l.map f4)
        = l.map (fun x => { id := f1 x, tag := f2 x, prop := f3 x, values := f4 x }) := by
  intro l
  induction l with
  | nil => rfl
  | cons a t ih =>
    show ({ id := f1 a, tag := f2 a, prop := f3 a, values := f4 a } : ParsedRow)
        :: zipCols (t.map f1) (t.map f2) (t.map f3) (t.map f4) = _
    rw [ih, List.map_cons]

theorem parse_csv_records_of_strings (recs : List CsvRec)
    (h : ∀ rec ∈ recs,
        mayBeNonString (recField rec (pyStr "id")) = false
        ∧ mayBeNonString (recField rec (pyStr "tag")) = false
        ∧ mayBeNonString (recField rec (pyStr "property")) = false
        ∧ mayBeNonString (recField rec (pyStr "values")) = false) :
    parse_csv_records recs
      = recs.map (fun rec =>
          { id := some (recField rec (pyStr "id")),
            tag := some (recField rec (pyStr "tag")),
            prop := some (recField rec (pyStr "property")),
            values := some (recField rec (pyStr "values")) }) := by
  unfold parse_csv_records
  have h1 : ∀ s ∈ recs.map (fun r => recField r (pyStr "id")), mayBeNonString s = false := by
    intro s hs
    rcases List.mem_map.mp hs with ⟨r, hr, rfl⟩
    exact (h r hr).1
  have h2 : ∀ s ∈ recs.map (fun r => recField r (pyStr "tag")), mayBeNonString s = false := by
    intro s hs
    rcases List.mem_map.mp hs with ⟨r, hr, rfl⟩
    exact (h r hr).2.1
  have h3 : ∀ s ∈ recs.map (fun r => recField r (pyStr "property")), mayBeNonString s = false := by
    intro s hs
    rcases List.mem_map.mp hs with ⟨r, hr, rfl⟩
    exact (h r hr).2.2.1
  have h4 : ∀ s ∈ recs.map (fun r => recField r (pyStr "values")), mayBeNonString s = false := by
    intro s hs
    rcases List.mem_map.mp hs with ⟨r, hr, rfl⟩
    exact (h r hr).2.2.2
  rw [parse_csv_column_strings h1, parse_csv_column_strings h2,
      parse_csv_column_strings h3, parse_csv_column_strings h4]
  rw [List.map_map, List.map_map, List.map_map, List.map_map]
  exact zipCols_map _ _ _ _ recs

theorem evtOf_row (anns : List Annotation) (an : Annotation) (t pr : Option PyStr)
    (vals : List PyStr)
    (hfind : an_dict_find anns an.uuid = some an)
    (hne : vals ≠ []) (hc : ∀ v ∈ vals, ',' ∉ v) :
    evtOf anns { id := some an.uuid, tag := t, prop := pr,
                 values := some (joinChar ',' vals) }
      = some { target_uuid := an.uuid, tag := t, prop := pr, value := vals } := by
  have h1 : evtOf anns { id := some an.uuid, tag := t, prop := pr, values := some (joinChar ',' vals) }
      = (match an_dict_find anns an.uuid with
        | none => none
        | some an2 => some { target_uuid := an2.uuid, tag := t, prop := pr, value := splitOnChar ',' (joinChar ',' vals) }) := rfl
  rw [h1, hfind, split_join ',' vals hne hc]

theorem write_records_all (anns : List Annotation) (title acName : PyStr)
    (hk2 : ∀ an ∈ anns, ∀ q ∈ an.properties, lit_search (pyStr "prop:") q.1 = false) :
    write_records (collection_of anns title acName) none none false
      = anns.flatMap (fun an => an.properties.map (full_export_record acName an)) := by
  have hnames : ∀ q ∈ (ac_to_df anns title acName).propCols,
      lit_search (pyStr "prop:") q.1 = false := by
    intro q hq
    have hkm : keyMem q.1 (build_properties_dict (anns.map (fun a => a.properties)))
        = true := by
      have := keyMem_of_mem hq
      simpa [ac_to_df, split_property_dict_to_column, List.map_map] using this
    rcases build_keys_sub _ q.1 hkm with ⟨item, hitem, hkm2⟩
    rcases List.mem_map.mp hitem with ⟨a, ha, rfl⟩
    rcases exists_of_keyMem hkm2 with ⟨q0, hq0, hq01⟩
    rw [← hq01]
    exact hk2 a ha q0 hq0
  show annotation_output anns acName
      (selected_properties (collection_of anns title acName) none) false = _
  have hsel : selected_properties (collection_of anns title acName) none
      = (ac_to_df anns title acName).propCols.map Prod.fst :=
    propcols_filterMap _ rfl hnames
  rw [hsel]
  unfold annotation_output
  apply flatMap_congr_mem
  intro an han
  apply filterMap_eq_map_of_some
  intro q hq
  have hkm : keyMem q.1 (build_properties_dict (anns.map (fun a => a.properties)))
      = true :=
    build_keys_complete _ an.properties (List.mem_map_of_mem _ han) q hq
  have hkm2 : keyMem q.1 (ac_to_df anns title acName).propCols = true := by
    simpa [ac_to_df, split_property_dict_to_column, List.map_map] using hkm
  rcases exists_of_keyMem hkm2 with ⟨p, hp, hp1⟩
  have hcont : ((ac_to_df anns title acName).propCols.map Prod.fst).contains q.1
      = true := by
    apply contains_of_mem
    rw [← hp1]
    exact List.mem_map_of_mem Prod.fst hp
  simp only [hcont]
  rfl

/-- C2 (amended): exporting with `only_missing_prop_values=False`, parsing
the unmodified file back with pandas, and importing it reproduces the
original property-value assignments exactly — provided annotation uuids are
distinct, property names do not contain the literal `prop:`, every property
has at least one value, no individual value contains a comma (the join/split
delimiter), and each uuid, tag name, property name and comma-joined value
string is recognizably a string to pandas (not a numeric/bool/NA-shaped
field, which dtype inference would read back as a non-string and the import
would miss or corrupt).  A value containing a comma is split apart on import,
so the round trip is not bit-for-bit in general. -/
theorem C2_csv_round_trip (anns : List Annotation) (title acName : PyStr)
    (hu : (anns.map (fun a => a.uuid)).Nodup)
    (hs : ∀ an ∈ anns, mayBeNonString an.uuid = false
        ∧ mayBeNonString an.tag.name = false)
    (hp : ∀ an ∈ anns, ∀ q ∈ an.properties,
        lit_search (pyStr "prop:") q.1 = false
        ∧ q.2 ≠ [] ∧ (∀ v ∈ q.2, ',' ∉ v)
        ∧ mayBeNonString q.1 = false
        ∧ mayBeNonString (joinChar ',' q.2) = false) :
    (read_annotation_csv anns
        (parse_csv_records
          (write_records (collection_of anns title acName) none none false))).events
      = anns.flatMap (fun an => an.properties.map (fun q =>
          { target_uuid := an.uuid, tag := some an.tag.name, prop := some q.1,
            value := q.2 })) := by
  have hevents : ∀ rows : List ParsedRow,
      (read_annotation_csv anns rows).events = rows.filterMap (evtOf anns) := by
    intro rows
    unfold read_annotation_csv
    rw [read_foldl]
    simp
  rw [hevents]
  rw [write_records_all anns title acName (fun an han q hq => (hp an han q hq).1)]
  have hfields : ∀ rec ∈ anns.flatMap
      (fun an => an.properties.map (full_export_record acName an)),
      mayBeNonString (recField rec (pyStr "id")) = false
      ∧ mayBeNonString (recField rec (pyStr "tag")) = false
      ∧ mayBeNonString (recField rec (pyStr "property")) = false
      ∧ mayBeNonString (recField rec (pyStr "values")) = false := by
    intro rec hrec
    rcases List.mem_flatMap.mp hrec with ⟨an, han, hrec2⟩
    rcases List.mem_map.mp hrec2 with ⟨q, hq, rfl⟩
    refine ⟨?_, ?_, ?_, ?_⟩
    · rw [full_record_id]
      exact (hs an han).1
    · rw [full_record_tag]
      exact (hs an han).2
    · rw [full_record_prop]
      exact (hp an han q hq).2.2.2.1
    · rw [full_record_values]
      exact (hp an han q hq).2.2.2.2
  rw [parse_csv_records_of_strings _ hfields]
  rw [List.filterMap_map]
  rw [filterMap_flatMap_comm]
  apply flatMap_congr_mem
  intro an han
  rw [List.filterMap_map]
  apply filterMap_eq_map_of_some
  intro q hq
  have h4 := hp an han q hq
  exact evtOf_row anns an (some an.tag.name) (some q.1) q.2
    (an_dict_find_self anns hu han) h4.2.1 h4.2.2.1

theorem ac_to_df_rows_length (anns : List Annotation) (title acName : PyStr) :
    (ac_to_df anns title acName).rows.length = anns.length := by
  simp [ac_to_df, split_property_dict_to_column]

theorem ac_to_df_propCols (anns : List Annotation) (title acName : PyStr) :
    (ac_to_df anns title acName).propCols
      = build_properties_dict (anns.map (fun a => a.properties)) := by
  simp only [ac_to_df, split_property_dict_to_column, List.map_map]
  exact congrArg build_properties_dict (map_congr_mem (fun a _ => rfl))

/-- C1: the normalized table (`ac_to_df` via `split_property_dict_to_column`)
has one row per annotation, and every dynamic property column is row-aligned:
its length equals the annotation count and its entry for row `i` is annotation
`i`'s value list for that property — the one-element missing marker `['nan']`
whenever the annotation lacks the property. -/
theorem C1_property_columns_aligned (anns : List Annotation) (title acName : PyStr)
    (h : ∀ an ∈ anns, keysNodup an.properties) :
    (ac_to_df anns title acName).rows.length = anns.length
    ∧ ∀ p ∈ (ac_to_df anns title acName).propCols,
        p.2.length = anns.length
        ∧ ∀ i (hi : i < anns.length),
            p.2.getD i [] = (lookupVal (anns.get ⟨i, hi⟩).properties p.1).getD nanv := by
  refine ⟨ac_to_df_rows_length anns title acName, ?_⟩
  intro p hp
  rw [ac_to_df_propCols] at hp
  have hitems : ∀ item ∈ anns.map (fun a => a.properties), keysNodup item := by
    intro item hitem
    rcases List.mem_map.mp hitem with ⟨a, ha, rfl⟩
    exact h a ha
  obtain ⟨hlen, hval⟩ := build_props_inv _ hitems p hp
  constructor
  · simpa using hlen
  · intro i hi
    have hv := hval i (by simpa using hi)
    rw [hv, getD_map_lt (fun a => a.properties) anns [] c1a i hi,
        getD_eq_get anns c1a i hi]

/-- C1 witness: the alignment facts at a concrete two-annotation collection
(one annotation has property `p`, the other has none). -/
theorem C1_property_columns_witness :
    (∀ an ∈ [c1a, c1b], keysNodup an.properties)
    ∧ ((ac_to_df [c1a, c1b] (pyStr "doc") (pyStr "col")).rows.length = [c1a, c1b].length
      ∧ ∀ p ∈ (ac_to_df [c1a, c1b] (pyStr "doc") (pyStr "col")).propCols,
          p.2.length = [c1a, c1b].length
          ∧ ∀ i (hi : i < [c1a, c1b].length),
              p.2.getD i [] = (lookupVal ([c1a, c1b].get ⟨i, hi⟩).properties p.1).getD nanv) :=
  ⟨by decide, C1_property_columns_aligned [c1a, c1b] (pyStr "doc") (pyStr "col") (by decide)⟩

/-- C2 witness: the round trip reproduces a comma-free assignment exactly. -/
theorem C2_round_trip_witness :
    ([c2b].map (fun a => a.uuid)).Nodup
    ∧ (read_annotation_csv [c2b]
        (parse_csv_records
          (write_records (collection_of [c2b] (pyStr "doc") (pyStr "col")) none none false))).events
      = [c2b].flatMap (fun an => an.properties.map (fun q =>
          { target_uuid := an.uuid, tag := some an.tag.name, prop := some q.1,
            value := q.2 })) :=
  ⟨by decide,
   C2_csv_round_trip [c2b] (pyStr "doc") (pyStr "col") (by decide) (by decide) (by decide)⟩

/-- C2 counterexample: a property value containing a comma is exported as the
field `a,b` (non-empty, read back as the same string) but re-imported as the
two values `a` and `b` — `set_property_values` does not receive the exported
value sequence, so the round trip is not bit-for-bit. -/
theorem C2_counterexample :
    (read_annotation_csv [c2a]
        (parse_csv_records
          (write_records (collection_of [c2a] (pyStr "doc") (pyStr "col")) none none false))).events
      = [{ target_uuid := pyStr "A", tag := some (pyStr "X"), prop := some (pyStr "p"),
           value := [pyStr "a", pyStr "b"] }]
    ∧ lookupVal c2a.properties (pyStr "p") = some [pyStr "a,b"]
    ∧ [pyStr "a", pyStr "b"] ≠ ([pyStr "a,b"] : List PyStr) := by
  refine ⟨rfl, rfl, by decide⟩

/-- C5 witness: a concrete record of the `only_missing_prop_values=False`
branch and its key order. -/
theorem C5_write_shape_witness :
    (full_export_record (pyStr "col") c2b (pyStr "p", [pyStr "u", pyStr "w"])
        ∈ write_records (collection_of [c2b] (pyStr "doc") (pyStr "col")) none none false)
    ∧ (full_export_record (pyStr "col") c2b (pyStr "p", [pyStr "u", pyStr "w"])).map Prod.fst
        = (if false then claimed_csv_columns else swapped_csv_columns) :=
  ⟨by decide,
   ((C5_write_annotation_csv_shape (collection_of [c2b] (pyStr "doc") (pyStr "col"))
       none none false).2.1 _ (by decide)).1⟩

/-- C5 counterexample: with `only_missing_prop_values=False` the written
header is `id;annotation_collection;text;tag;property;values` — not the
order `id;annotation_collection;tag;text;property;values` the spec states
for both branches. -/
theorem C5_counterexample :
    (write_annotation_csv (collection_of [c2b] (pyStr "doc") (pyStr "col")) none none false).header
      = swapped_csv_columns
    ∧ swapped_csv_columns ≠ claimed_csv_columns := by
  refine ⟨rfl, by decide⟩

/-- C7 witness: both directions at a concrete collection with the single
property `p`: an unobserved property raises with exactly the observed names,
an observed one succeeds. -/
theorem C7_duplicate_witness :
    duplicate_by_prop (collection_of [c2b] (pyStr "doc") (pyStr "col")) (pyStr "zzz")
        = Except.error ((collection_of [c2b] (pyStr "doc") (pyStr "col")).df.propCols.map Prod.fst)
    ∧ (duplicate_by_prop (collection_of [c2b] (pyStr "doc") (pyStr "col")) (pyStr "p")).isOk = true :=
  ⟨(C7_duplicate_by_prop [c2b] (pyStr "doc") (pyStr "col") (pyStr "zzz")
      (by decide) (by decide)).1 (by decide),
   (C7_duplicate_by_prop [c2b] (pyStr "doc") (pyStr "col") (pyStr "p")
      (by decide) (by decide)).2 (by decide)⟩

/-- C7 counterexample: for a collection whose only property is named
`aprop:b`, requesting an unobserved property lists `ab` — obtained by deleting
every `prop:` occurrence from the column name `prop:aprop:b` — which is not a
property name present in the collection, so the message does not list exactly
the present names. -/
theorem C7_counterexample :
    duplicate_by_prop (collection_of [c7a] (pyStr "doc") (pyStr "col")) (pyStr "zzz")
        = Except.error [pyStr "ab"]
    ∧ (collection_of [c7a] (pyStr "doc") (pyStr "col")).df.propCols.map Prod.fst
        = [pyStr "aprop:b"]
    ∧ pyStr "ab" ∉ [pyStr "aprop:b"] := by
  refine ⟨rfl, rfl, by decide⟩
